import Mathlib

/-!
Verification of the content-addressable object store, tree codec,
commit codec and ref resolver of the pygit repository
(stage1_object_store.py, stage2_blobs_and_trees.py,
stage3_commits_and_history.py, stage4_refs_and_branches.py).

Modelling conventions:
* Byte strings are `List Nat` (each element a byte value; Python `bytes`
  and, at the boundaries where Python works with `str`, the UTF-8
  encoding of that string, validated where the source calls `.decode()`).
* The object store is an association list from the 40-hex-character
  address to the stored object file's bytes.  The source shards the
  address into `objects/<2-hex>/<38-hex>`; that renaming of keys is
  injective, so the model keys files by the full address.  `zlib`
  compression is a lossless encoding (decompress ∘ compress = id) and is
  modelled as the identity on the framed bytes.
* Python `sorted` is a stable sort; it is modelled by a stable insertion
  sort (all stable sorts of a list under the same key agree).
* Errors (`raise`) are modelled with `Except`/`Option`; every distinct
  failure path of the source gets a distinct error constructor.
-/

namespace PyGit

/-- Byte strings: each element is one byte value. -/
abbrev Bytes := List Nat

/-! ## Small byte-string helpers shared by the stages -/

/-- Split at the first occurrence of byte `sep`:
Python `b.split(sep, 1)` when it returns two pieces, `none` when `sep`
does not occur (Python returns the one-element list, so two-element
unpacking raises). -/
def splitFirst (sep : Nat) : Bytes → Option (Bytes × Bytes)
  | [] => none
  | b :: rest =>
    if b = sep then some ([], rest)
    else match splitFirst sep rest with
      | none => none
      | some (a, c) => some (b :: a, c)

/-- Split at every occurrence of byte `sep`: Python `s.split(sep)`
with no maxsplit. -/
def splitAll (sep : Nat) : Bytes → List Bytes
  | [] => [[]]
  | b :: rest =>
    if b = sep then [] :: splitAll sep rest
    else match splitAll sep rest with
      | [] => [[b]]
      | h :: t => (b :: h) :: t

/-- Decimal digits of `n`, most significant first, as ASCII bytes.
Fuel-structured so that it reduces in the kernel; `fuel = n` always
suffices because a number has at most `n` digits. -/
def natToDecAux : Nat → Nat → Bytes → Bytes
  | 0, _, acc => acc
  | _ + 1, 0, acc => acc
  | fuel + 1, n, acc => natToDecAux fuel (n / 10) ((48 + n % 10) :: acc)

/-- Python `str(n)` / `f-string` rendering of a natural number. -/
def natToDecimal (n : Nat) : Bytes :=
  if n = 0 then [48] else natToDecAux n n []

/-- Is `c` an ASCII decimal digit? -/
def isDigitByte (c : Nat) : Bool := 48 ≤ c && c ≤ 57

/-- The number of decimal digits produced for `n` (0 for 0); proof
device for the decimal round-trip. -/
def digitCount (n : Nat) : Nat :=
  if h : n = 0 then 0 else digitCount (n / 10) + 1
decreasing_by
  exact Nat.div_lt_self (Nat.pos_of_ne_zero h) (by omega)

/-- Python `int(s)` on the canonical all-digit strings the source
produces and stores (nonempty, digits only; other `int` inputs never
arise from the source's own frames). -/
def parseDecimal (l : Bytes) : Option Nat :=
  if l = [] then none
  else if l.all isDigitByte then
    some (l.foldl (fun a c => a * 10 + (c - 48)) 0)
  else none

/-! ## UTF-8 validation

Python `bytes.decode()` raises `UnicodeDecodeError` on invalid UTF-8.
The model keeps decoded strings as their UTF-8 bytes and models
`.decode()` as this validation step. -/

/-- Is `c` a UTF-8 continuation byte (0x80–0xBF)? -/
def isCont (c : Nat) : Bool := 128 ≤ c && c ≤ 191

/-- Valid ranges for the first continuation byte after a 3-byte leader. -/
def utf8Follow3 (b c1 : Nat) : Bool :=
  if b = 224 then 160 ≤ c1 && c1 ≤ 191
  else if b = 237 then 128 ≤ c1 && c1 ≤ 159
  else isCont c1

/-- Valid ranges for the first continuation byte after a 4-byte leader. -/
def utf8Follow4 (b c1 : Nat) : Bool :=
  if b = 240 then 144 ≤ c1 && c1 ≤ 191
  else if b = 244 then 128 ≤ c1 && c1 ≤ 143
  else isCont c1

mutual

/-- UTF-8 validity of a byte string (RFC 3629 table): an ASCII byte
stands alone; a 2-, 3- or 4-byte leader hands the rest to the matching
tail checker; 0x80–0xC1 and 0xF5–0xFF never start a sequence. -/
def isValidUtf8 : Bytes → Bool
  | [] => true
  | b :: rest =>
    if b < 128 then isValidUtf8 rest
    else if b < 194 then false
    else if b < 224 then utf8Tail1 rest
    else if b < 240 then utf8Tail2 b rest
    else if b < 245 then utf8Tail3 b rest
    else false

/-- One continuation byte after a 2-byte leader. -/
def utf8Tail1 : Bytes → Bool
  | c1 :: r => isCont c1 && isValidUtf8 r
  | [] => false

/-- Two continuation bytes after the 3-byte leader `b`. -/
def utf8Tail2 (b : Nat) : Bytes → Bool
  | c1 :: c2 :: r => utf8Follow3 b c1 && isCont c2 && isValidUtf8 r
  | _ => false

/-- Three continuation bytes after the 4-byte leader `b`. -/
def utf8Tail3 (b : Nat) : Bytes → Bool
  | c1 :: c2 :: c3 :: r => utf8Follow4 b c1 && isCont c2 && isCont c3 && isValidUtf8 r
  | _ => false

end

/-! ## Python `str.strip()` over UTF-8 bytes

`str.strip()` removes every character for which `str.isspace()`-style
whitespace holds (CPython `Py_UNICODE_ISSPACE`), not only ASCII
whitespace, and it operates on the decoded string; the model decodes
the UTF-8 bytes to code points, strips both ends, and re-encodes. -/

/-- The code points Python `str.strip()` removes (CPython
`Py_UNICODE_ISSPACE`): TAB..CR, the information separators FS..US and
the space, NEL, NO-BREAK SPACE, OGHAM SPACE MARK, EN QUAD..HAIR SPACE,
LINE and PARAGRAPH SEPARATOR, NARROW NO-BREAK SPACE, MEDIUM
MATHEMATICAL SPACE, and IDEOGRAPHIC SPACE. -/
def isUnicodeSpace (cp : Nat) : Bool :=
  (9 ≤ cp && cp ≤ 13) || (28 ≤ cp && cp ≤ 32) || cp == 133 || cp == 160 ||
    cp == 5760 || (8192 ≤ cp && cp ≤ 8202) || cp == 8232 || cp == 8233 ||
    cp == 8239 || cp == 8287 || cp == 12288

/-- Decode the first UTF-8 character of a byte string: its code point
and the remaining bytes (`none` on invalid leading bytes). -/
def utf8DecodeFirst : Bytes → Option (Nat × Bytes)
  | [] => none
  | b :: rest =>
    if b < 128 then some (b, rest)
    else if b < 194 then none
    else if b < 224 then
      match rest with
      | c1 :: r => if isCont c1 then some ((b - 192) * 64 + (c1 - 128), r) else none
      | [] => none
    else if b < 240 then
      match rest with
      | c1 :: c2 :: r =>
        if utf8Follow3 b c1 && isCont c2 then
          some ((b - 224) * 4096 + (c1 - 128) * 64 + (c2 - 128), r)
        else none
      | _ => none
    else if b < 245 then
      match rest with
      | c1 :: c2 :: c3 :: r =>
        if utf8Follow4 b c1 && isCont c2 && isCont c3 then
          some ((b - 240) * 262144 + (c1 - 128) * 4096 + (c2 - 128) * 64 + (c3 - 128), r)
        else none
      | _ => none
    else none

/-- Decode a whole byte string to its code points; fuel-structured
(`l.length` steps suffice since every character consumes a byte). -/
def utf8DecodeAux : Nat → Bytes → Option (List Nat)
  | _, [] => some []
  | 0, _ :: _ => none
  | fuel + 1, l =>
    match utf8DecodeFirst l with
    | some (cp, rest) => (utf8DecodeAux fuel rest).map (cp :: ·)
    | none => none

/-- Python `bytes.decode('utf-8')` as a code-point sequence. -/
def utf8Decode (l : Bytes) : Option (List Nat) := utf8DecodeAux l.length l

/-- Encode one code point as UTF-8 bytes. -/
def utf8EncodeChar (cp : Nat) : Bytes :=
  if cp < 128 then [cp]
  else if cp < 2048 then [192 + cp / 64, 128 + cp % 64]
  else if cp < 65536 then [224 + cp / 4096, 128 + cp / 64 % 64, 128 + cp % 64]
  else [240 + cp / 262144, 128 + cp / 4096 % 64, 128 + cp / 64 % 64, 128 + cp % 64]

/-- Encode a code-point sequence as UTF-8 bytes. -/
def utf8Encode (cps : List Nat) : Bytes :=
  cps.foldr (fun cp acc => utf8EncodeChar cp ++ acc) []

/-- Python `s.strip()` on the UTF-8 bytes of `s`: decode, drop the
whitespace characters from both ends, re-encode.  On bytes that are not
valid UTF-8 no stripping happens; that branch is unreachable from the
source's call sites, because Python raises `UnicodeDecodeError` at the
preceding `.decode()` / `read_text()` before ever stripping. -/
def pyStrip (l : Bytes) : Bytes :=
  match utf8Decode l with
  | some cps =>
    utf8Encode (((cps.dropWhile isUnicodeSpace).reverse.dropWhile isUnicodeSpace).reverse)
  | none => l

/-! ## Hexadecimal encoding (`bytes.hex()` / `bytes.fromhex`) -/

/-- Lower-case hex digit for a nibble. -/
def hexDigitChar (d : Nat) : Nat := if d < 10 then 48 + d else 87 + d

/-- Python `bytes.hex()`: two lower-case hex characters per byte. -/
def bytesToHex (l : Bytes) : Bytes :=
  l.foldr (fun b acc => hexDigitChar (b / 16) :: hexDigitChar (b % 16) :: acc) []

/-- Value of one hex character (Python accepts both cases). -/
def hexDigitVal (c : Nat) : Option Nat :=
  if 48 ≤ c && c ≤ 57 then some (c - 48)
  else if 97 ≤ c && c ≤ 102 then some (c - 87)
  else if 65 ≤ c && c ≤ 70 then some (c - 55)
  else none

/-- Python `bytes.fromhex` on whitespace-free input (addresses never
contain whitespace): pairs of hex digits, `none` (ValueError) on an odd
length or a non-hex character. -/
def bytesFromHex : Bytes → Option Bytes
  | [] => some []
  | [_] => none
  | c1 :: c2 :: rest =>
    match hexDigitVal c1, hexDigitVal c2, bytesFromHex rest with
    | some h, some lo, some bs => some ((h * 16 + lo) :: bs)
    | _, _, _ => none

/-- Is `c` a lower-case hex digit character? -/
def isLowerHexDigit (c : Nat) : Bool :=
  (48 ≤ c && c ≤ 57) || (97 ≤ c && c ≤ 102)

/-! ## SHA-1 (`hashlib.sha1`), executable, over byte lists -/

/-- Truncate to a 32-bit word. -/
def w32 (n : Nat) : Nat := n % 4294967296

/-- Rotate a 32-bit word left by `k` (for `0 < k < 32`, `n < 2^32`). -/
def rotl32 (k n : Nat) : Nat := w32 (n <<< k) ||| (n >>> (32 - k))

/-- `k` big-endian bytes of `n`. -/
def beBytes (k n : Nat) : Bytes :=
  (List.range k).map fun i => (n >>> (8 * (k - 1 - i))) % 256

/-- SHA-1 / MD5 padding: 0x80, zeros to 56 mod 64, 8-byte bit length. -/
def sha1Pad (msg : Bytes) : Bytes :=
  let padZeros := (64 - (msg.length + 9) % 64) % 64
  msg ++ 128 :: List.replicate padZeros 0 ++ beBytes 8 (8 * msg.length)

/-- Split into 64-byte chunks; fuel-structured (fuel `l.length` suffices). -/
def chunks64Aux : Nat → Bytes → List Bytes
  | 0, _ => []
  | _ + 1, [] => []
  | fuel + 1, l => l.take 64 :: chunks64Aux fuel (l.drop 64)

/-- The 16 big-endian 32-bit words of one 64-byte chunk. -/
def wordsOfChunk (c : Bytes) : List Nat :=
  (List.range 16).map fun i =>
    c.getD (4 * i) 0 <<< 24 + c.getD (4 * i + 1) 0 <<< 16 +
      c.getD (4 * i + 2) 0 <<< 8 + c.getD (4 * i + 3) 0

/-- Extend 16 schedule words to 80:
`w[i] = rotl1 (w[i-3] xor w[i-8] xor w[i-14] xor w[i-16])`. -/
def extendSchedule (w : List Nat) : List Nat :=
  (List.range 64).foldl
    (fun acc _ =>
      acc ++ [rotl32 1 (acc.getD (acc.length - 3) 0 ^^^ acc.getD (acc.length - 8) 0 ^^^
        acc.getD (acc.length - 14) 0 ^^^ acc.getD (acc.length - 16) 0)])
    w

/-- The SHA-1 round function and constant for round `i`. -/
def sha1F (i b c d : Nat) : Nat × Nat :=
  if i < 20 then ((b &&& c) ||| ((b ^^^ 4294967295) &&& d), 1518500249)
  else if i < 40 then (b ^^^ c ^^^ d, 1859775393)
  else if i < 60 then ((b &&& c) ||| (b &&& d) ||| (c &&& d), 2400959708)
  else (b ^^^ c ^^^ d, 3395469782)

/-- One SHA-1 compression step over a 64-byte chunk. -/
def processChunk (h : Nat × Nat × Nat × Nat × Nat) (chunk : Bytes) :
    Nat × Nat × Nat × Nat × Nat :=
  let w := extendSchedule (wordsOfChunk chunk)
  let (h0, h1, h2, h3, h4) := h
  let s := (List.range 80).foldl
    (fun (st : Nat × Nat × Nat × Nat × Nat) i =>
      let (a, b, c, d, e) := st
      let (f, k) := sha1F i b c d
      (w32 (rotl32 5 a + f + e + k + w.getD i 0), a, rotl32 30 b, c, d))
    (h0, h1, h2, h3, h4)
  (w32 (h0 + s.1), w32 (h1 + s.2.1), w32 (h2 + s.2.2.1),
    w32 (h3 + s.2.2.2.1), w32 (h4 + s.2.2.2.2))

/-- SHA-1 digest: 20 bytes. -/
def sha1 (msg : Bytes) : Bytes :=
  let padded := sha1Pad msg
  let h := (chunks64Aux padded.length padded).foldl processChunk
    (1732584193, 4023233417, 2562383102, 271733878, 3285377520)
  beBytes 4 h.1 ++ beBytes 4 h.2.1 ++ beBytes 4 h.2.2.1 ++
    beBytes 4 h.2.2.2.1 ++ beBytes 4 h.2.2.2.2

/-- `hashlib.sha1(m).hexdigest()`: 40 lower-case hex characters. -/
def sha1Hex (msg : Bytes) : Bytes := bytesToHex (sha1 msg)

/-! ## Stage 1: `GitObjectStore` (stage1_object_store.py)

The store is an association list from the 40-hex address to the bytes of
the object file at `objects/<2-hex>/<38-hex>` (sharding is an injective
renaming of keys; zlib compression a lossless encoding, both modelled
away as identities). -/

/-- On-disk object store state. -/
abbrev Store := List (Bytes × Bytes)

/-- ASCII bytes of the object-kind string "blob". -/
def blobKind : Bytes := [98, 108, 111, 98]

/-- ASCII bytes of the object-kind string "tree". -/
def treeKind : Bytes := [116, 114, 101, 101]

/-- ASCII bytes of the object-kind string "commit". -/
def commitKind : Bytes := [99, 111, 109, 109, 105, 116]

/-- The framed representation both hashed and stored:
`f"{obj_type} {len(content)}\0".encode() + content`. -/
def frameBytes (objType content : Bytes) : Bytes :=
  objType ++ 32 :: natToDecimal content.length ++ 0 :: content

/-- `GitObjectStore._hash_content`: SHA-1 hex digest of the framed bytes. -/
def hashContent (objType content : Bytes) : Bytes :=
  sha1Hex (frameBytes objType content)

/-- `GitObjectStore.store_object`: compute the address; if no object file
exists there, write the (compressed) framed bytes; return the address
either way. -/
def storeObject (s : Store) (objType content : Bytes) : Bytes × Store :=
  let sha1Hash := hashContent objType content
  match s.lookup sha1Hash with
  | some _ => (sha1Hash, s)
  | none => (sha1Hash, (sha1Hash, frameBytes objType content) :: s)

/-- The distinct failure paths of `GitObjectStore.retrieve_object`. -/
inductive ObjErr where
  /-- `FileNotFoundError(f"Object {sha1_hash} not found")`. -/
  | notFound (sha1Hash : Bytes)
  /-- `raw_data.split(b'\0', 1)` produced one piece: unpacking raises. -/
  | noNulByte
  /-- `header.decode()` raised `UnicodeDecodeError`. -/
  | decodeError
  /-- `header.decode().split(' ')` did not produce exactly two pieces. -/
  | headerParts
  /-- `int(size_str)` raised `ValueError`. -/
  | sizeNotInt
  /-- `ValueError(f"Object {sha1_hash} corrupted: size mismatch")`. -/
  | corrupted (sha1Hash : Bytes)
  deriving DecidableEq

/-- `GitObjectStore.retrieve_object`: locate by address, split the frame
header from the payload at the first NUL, parse `"<type> <size>"`, and
check the declared size against the payload length. -/
def retrieveObject (s : Store) (sha1Hash : Bytes) : Except ObjErr (Bytes × Bytes) :=
  match s.lookup sha1Hash with
  | none => .error (.notFound sha1Hash)
  | some rawData =>
    match splitFirst 0 rawData with
    | none => .error .noNulByte
    | some (header, content) =>
      if isValidUtf8 header then
        match splitAll 32 header with
        | [objType, sizeStr] =>
          match parseDecimal sizeStr with
          | none => .error .sizeNotInt
          | some size =>
            if content.length = size then .ok (objType, content)
            else .error (.corrupted sha1Hash)
        | _ => .error .headerParts
      else .error .decodeError

/-! ## Stage 2: `GitTreeBuilder` (stage2_blobs_and_trees.py) -/

/-- One element of the `entries` list of `create_tree_from_directory`:
the tuple `(mode, obj_type, obj_hash, name)`. -/
structure TEntry where
  mode : Bytes
  otype : Bytes
  ohash : Bytes
  name : Bytes
  deriving DecidableEq

/-- Strict lexicographic order on byte strings: Python `<` on the
corresponding strings (UTF-8 byte order coincides with code-point order). -/
def bytesLt : Bytes → Bytes → Bool
  | [], [] => false
  | [], _ :: _ => true
  | _ :: _, [] => false
  | a :: as, b :: bs => if a < b then true else if b < a then false else bytesLt as bs

/-- Insert `x` into a sorted list, before the first element not strictly
below it — the insertion step of a stable sort. -/
def insertStable {α : Type} (lt : α → α → Bool) (x : α) : List α → List α
  | [] => [x]
  | y :: ys => if lt y x then y :: insertStable lt x ys else x :: y :: ys

/-- Stable insertion sort.  Python `sorted` is a stable sort, and all
stable sorts under the same key order agree, so this models `sorted`. -/
def stableSort {α : Type} (lt : α → α → Bool) : List α → List α
  | [] => []
  | x :: xs => insertStable lt x (stableSort lt xs)

/-- `sorted(entries, key=lambda x: x[3])`: stable sort by entry name. -/
def sortByName (entries : List TEntry) : List TEntry :=
  stableSort (fun a b => bytesLt a.name b.name) entries

/-- One serialized tree record, `f"{mode} {name}\0".encode()` followed by
`bytes.fromhex(obj_hash)`; `none` models the `ValueError` raised by
`fromhex` on a malformed hash string. -/
def serializeEntry (e : TEntry) : Option Bytes :=
  (bytesFromHex e.ohash).map fun hashBytes => e.mode ++ 32 :: e.name ++ 0 :: hashBytes

/-- `GitTreeBuilder._build_tree_content`: concatenate the serialized
records of the entries sorted by name. -/
def buildTreeContent (entries : List TEntry) : Option Bytes :=
  (sortByName entries).foldl
    (fun acc e => acc.bind fun c => (serializeEntry e).map (c ++ ·)) (some [])

/-- A filesystem object as seen by the tree walk: a regular file (with
its executable bit, from `_get_file_mode`) or a directory. -/
inductive FSEntry where
  | file (name : Bytes) (executable : Bool) (content : Bytes)
  | dir (name : Bytes) (children : List FSEntry)

/-- The name of a filesystem entry (`item.name`). -/
def FSEntry.name : FSEntry → Bytes
  | .file n _ _ => n
  | .dir n _ => n

/-- Modelled from the spec: the repository metadata directory name
`static.GIT_DIR` (the module `static.py` is not among the sources).  The
spec says the metadata directory is "by convention named so it is also
excluded from tree walks", i.e. a hidden name; the conventional value is
`.git`. -/
def GIT_DIR : Bytes := [46, 103, 105, 116]

/-- Python `item.name.startswith('.')`. -/
def startsWithDot : Bytes → Bool
  | c :: _ => c == 46
  | [] => false

/-- Tree-entry mode `'40000'` (directory). -/
def modeDir : Bytes := [52, 48, 48, 48, 48]

/-- Tree-entry mode `'100755'` (executable file). -/
def modeExec : Bytes := [49, 48, 48, 55, 53, 53]

/-- Tree-entry mode `'100644'` (regular file). -/
def modeRegular : Bytes := [49, 48, 48, 54, 52, 52]

/-- `sorted(directory.iterdir())`: children sorted by name (paths of
children of one directory compare by their final component). -/
def sortChildren (l : List FSEntry) : List FSEntry :=
  stableSort (fun a b => bytesLt a.name b.name) l

mutual

/-- Number of filesystem nodes, the termination measure of the walk. -/
def sizeFS : FSEntry → Nat
  | .file _ _ _ => 1
  | .dir _ ch => 1 + sizeFSList ch

/-- Total node count of a list of filesystem entries. -/
def sizeFSList : List FSEntry → Nat
  | [] => 0
  | e :: es => sizeFS e + sizeFSList es

end

/-- Every filesystem entry has positive size. -/
theorem sizeFS_pos (e : FSEntry) : 1 ≤ sizeFS e := by
  cases e <;> simp [sizeFS]

/-- `insertStable` preserves the total node count. -/
theorem sizeFSList_insertStable (lt : FSEntry → FSEntry → Bool) (x : FSEntry)
    (l : List FSEntry) :
    sizeFSList (insertStable lt x l) = sizeFS x + sizeFSList l := by
  induction l with
  | nil => simp [insertStable, sizeFSList]
  | cons y ys ih =>
    simp only [insertStable]
    by_cases h : lt y x = true
    · simp only [if_pos h, sizeFSList, ih]; omega
    · simp only [if_neg h, sizeFSList]

/-- Sorting the children does not change the total node count. -/
theorem sizeFSList_sortChildren (l : List FSEntry) :
    sizeFSList (sortChildren l) = sizeFSList l := by
  unfold sortChildren
  induction l with
  | nil => rfl
  | cons x xs ih =>
    simp only [stableSort, sizeFSList_insertStable, sizeFSList]
    rw [ih]

mutual

/-- `GitTreeBuilder.create_tree_from_directory`: skip the metadata
directory; walk the sorted children, storing file blobs and recursing
into subdirectories (omitting those that return `None`); return `None`
for an empty entry list, else store the tree object and return its
address.  (The final `none` branch models the `ValueError` that
`fromhex` would raise on a malformed entry hash; it is unreachable
because all entry hashes are `store_object` results.) -/
def createTreeFromDirectory (s : Store) (dirName : Bytes) (children : List FSEntry) :
    Option Bytes × Store :=
  if dirName = GIT_DIR then (none, s)
  else
    let (entries, s') := processItems s (sortChildren children)
    if entries = [] then (none, s')
    else
      match buildTreeContent entries with
      | some treeContent =>
        let (treeHash, s'') := storeObject s' treeKind treeContent
        (some treeHash, s'')
      | none => (none, s')
termination_by 2 * sizeFSList children + 2
decreasing_by
  simp [sizeFSList_sortChildren]

/-- The body of the `for item in sorted(directory.iterdir())` loop:
accumulate tree entries while threading the store. -/
def processItems (s : Store) : List FSEntry → List TEntry × Store
  | [] => ([], s)
  | item :: rest =>
    if startsWithDot item.name then processItems s rest
    else
      match item with
      | .file n ex c =>
        let (blobHash, s') := storeObject s blobKind c
        let mode := if ex then modeExec else modeRegular
        let (es, s'') := processItems s' rest
        (⟨mode, blobKind, blobHash, n⟩ :: es, s'')
      | .dir n ch =>
        match createTreeFromDirectory s n ch with
        | (some subtreeHash, s') =>
          let (es, s'') := processItems s' rest
          (⟨modeDir, treeKind, subtreeHash, n⟩ :: es, s'')
        | (none, s') => processItems s' rest
termination_by l => 2 * sizeFSList l + 1
decreasing_by
  all_goals simp [sizeFSList, sizeFS]
  · have := sizeFS_pos e; omega
  · omega

end

mutual

/-- Does the recursive build of this entry, as a subdirectory, return
absent?  (Files never do; a directory does iff it is the metadata
directory or every child is hidden or itself an absent directory.) -/
def yieldsAbsent : FSEntry → Bool
  | .file _ _ _ => false
  | .dir n ch => n == GIT_DIR || yieldsAbsentAll ch

/-- Do all entries of the list get skipped or yield absent subtrees? -/
def yieldsAbsentAll : List FSEntry → Bool
  | [] => true
  | c :: rest => (startsWithDot c.name || yieldsAbsent c) && yieldsAbsentAll rest

end

/-- The failure paths of the tree-parsing loop of
`GitTreeBuilder.read_tree_to_directory`. -/
inductive TreeParseErr where
  /-- `content[offset:null_pos].decode()` raised `UnicodeDecodeError`. -/
  | decodeError
  /-- `mode_name.split(' ', 1)` produced one piece: unpacking raises. -/
  | noSpace
  deriving DecidableEq

/-- The scanning loop of `read_tree_to_directory` (also repeated in
`ls_tree`): find the NUL ending `"<mode> <name>"` (`break` without error
when there is none), split mode from name at the first space, take the
next 20 bytes as the child address (fewer if fewer remain), hex them,
and continue after them.  Fuel-structured; `content.length` steps always
suffice because every record consumes at least one byte. -/
def parseTreeLoop : Nat → Bytes → Except TreeParseErr (List (Bytes × Bytes × Bytes))
  | 0, _ => .ok []
  | fuel + 1, content =>
    match splitFirst 0 content with
    | none => .ok []
    | some (modeName, rest) =>
      if isValidUtf8 modeName then
        match splitFirst 32 modeName with
        | none => .error .noSpace
        | some (mode, name) =>
          match parseTreeLoop fuel (rest.drop 20) with
          | .ok es => .ok ((mode, name, bytesToHex (rest.take 20)) :: es)
          | .error e => .error e
      else .error .decodeError

/-- The parses of the tree records of a binary tree payload:
`(mode, name, child address hex)` triples. -/
def parseTreeEntries (content : Bytes) : Except TreeParseErr (List (Bytes × Bytes × Bytes)) :=
  parseTreeLoop content.length content

/-! ## Stage 3: `GitCommits` (stage3_commits_and_history.py) -/

/-- ASCII bytes of the header prefix for the tree line, spelling
tree-space. -/
def treeLinePrefix : Bytes := [116, 114, 101, 101, 32]

/-- ASCII bytes of the header prefix for the parent line, spelling
parent-space. -/
def parentLinePrefix : Bytes := [112, 97, 114, 101, 110, 116, 32]

/-- ASCII bytes spelling author-space. -/
def authorKeyword : Bytes := [97, 117, 116, 104, 111, 114, 32]

/-- ASCII bytes spelling committer-space. -/
def committerKeyword : Bytes := [99, 111, 109, 109, 105, 116, 116, 101, 114, 32]

/-- ASCII bytes of the hardcoded identity, spelling
Peter Norvig, a space, and norvig-at-google.com in angle brackets. -/
def personField : Bytes :=
  [80, 101, 116, 101, 114, 32, 78, 111, 114, 118, 105, 103, 32, 60, 110, 111,
    114, 118, 105, 103, 64, 103, 111, 111, 103, 108, 101, 46, 99, 111, 109, 62]

/-- ASCII bytes of the timezone suffix, spelling space-plus-0000.
`create_commit` computes the offset of `datetime.now(timezone.utc)`,
which is always zero, so the rendered timezone is the constant +0000. -/
def tzSuffix : Bytes := [32, 43, 48, 48, 48, 48]

/-- The author header line for a given Unix timestamp. -/
def authorLine (timestamp : Nat) : Bytes :=
  authorKeyword ++ personField ++ 32 :: natToDecimal timestamp ++ tzSuffix

/-- The committer header line for a given Unix timestamp. -/
def committerLine (timestamp : Nat) : Bytes :=
  committerKeyword ++ personField ++ 32 :: natToDecimal timestamp ++ tzSuffix

/-- Python `"\n".join(lines)`. -/
def joinBytes (sep : Nat) : List Bytes → Bytes
  | [] => []
  | [l] => l
  | l :: ls => l ++ sep :: joinBytes sep ls

/-- The header lines of the composed commit text: the tree line, the
parent line when `parent_hash` is truthy (note `None` and the empty
string are both falsy in `if parent_hash:`), then author and
committer. -/
def commitHeaderLines (treeHash : Bytes) (parentHash : Option Bytes)
    (timestamp : Nat) : List Bytes :=
  [treeLinePrefix ++ treeHash] ++
    (match parentHash with
      | some p => if p = [] then [] else [parentLinePrefix ++ p]
      | none => []) ++
    [authorLine timestamp, committerLine timestamp]

/-- The composed commit text: header lines, a blank line, the message,
joined with newlines. -/
def commitContent (treeHash : Bytes) (parentHash : Option Bytes)
    (message : Bytes) (timestamp : Nat) : Bytes :=
  joinBytes 10 (commitHeaderLines treeHash parentHash timestamp ++ [[], message])

/-- `GitCommits.create_commit`: compose the commit text and store it as
a commit object.  The wall-clock timestamp is passed explicitly. -/
def createCommit (s : Store) (treeHash : Bytes) (parentHash : Option Bytes)
    (message : Bytes) (timestamp : Nat) : Bytes × Store :=
  storeObject s commitKind (commitContent treeHash parentHash message timestamp)

/-- The failure paths of `GitCommits.parse_commit`. -/
inductive CommitErr where
  /-- `retrieve_object` raised. -/
  | objectError (e : ObjErr)
  /-- `ValueError(f"Object {commit_hash} is not a commit")`. -/
  | notACommit (commitHash : Bytes)
  /-- `content.decode('utf-8')` raised `UnicodeDecodeError`. -/
  | decodeError
  /-- `split('\n\n', 1)` produced one piece: unpacking raises. -/
  | noBlankLine
  /-- `line.split(' ', 1)` produced one piece: unpacking raises. -/
  | malformedHeader
  deriving DecidableEq

/-- The parsed commit record: header key/value pairs in line order plus
the stripped message.  Python stores the headers in a dict; lookup in a
dict returns the value of the last assignment to a key. -/
structure CommitData where
  headers : List (Bytes × Bytes)
  message : Bytes
  deriving DecidableEq

/-- Dict-style lookup: the value of the last header line with key `k`. -/
def CommitData.get (cd : CommitData) (k : Bytes) : Option Bytes :=
  ((cd.headers.filter fun p => p.1 == k).map fun p => p.2).getLast?

/-- ASCII bytes spelling parent (the parsed header key). -/
def parentKey : Bytes := [112, 97, 114, 101, 110, 116]

/-- No two adjacent newline bytes (proof device for the blank-line
split). -/
def noNN : Bytes → Bool
  | a :: b :: r => !(a == 10 && b == 10) && noNN (b :: r)
  | _ => true

/-- Split at the first occurrence of two consecutive newline bytes:
Python `s.split('\n\n', 1)` when it yields two pieces (`none` when the
separator does not occur, so two-element unpacking raises). -/
def splitFirstNN : Bytes → Option (Bytes × Bytes)
  | [] => none
  | [_] => none
  | a :: b :: rest =>
    if a = 10 ∧ b = 10 then some ([], rest)
    else match splitFirstNN (b :: rest) with
      | none => none
      | some (x, y) => some (a :: x, y)

/-- The `for line in headers.split('\n')` loop of `parse_commit`: split
each line into key and value at the first space (raising on a line with
no space). -/
def parseHeaderLines : List Bytes → Except CommitErr (List (Bytes × Bytes))
  | [] => .ok []
  | line :: rest =>
    match splitFirst 32 line with
    | none => .error .malformedHeader
    | some (k, v) => (parseHeaderLines rest).map ((k, v) :: ·)

/-- `GitCommits.parse_commit`: retrieve the object, require kind
`commit`, decode, split headers from message at the first blank line,
parse the header lines, and keep the message stripped. -/
def parseCommit (s : Store) (commitHash : Bytes) : Except CommitErr CommitData :=
  match retrieveObject s commitHash with
  | .error e => .error (.objectError e)
  | .ok (objType, content) =>
    if objType = commitKind then
      if isValidUtf8 content then
        match splitFirstNN content with
        | none => .error .noBlankLine
        | some (headerBytes, message) =>
          match parseHeaderLines (splitAll 10 headerBytes) with
          | .error e => .error e
          | .ok hs => .ok ⟨hs, pyStrip message⟩
      else .error .decodeError
    else .error (.notACommit commitHash)

/-! ## Stage 4: `GitRefs` / `PyGitRef` (stage4_refs_and_branches.py)

The ref store is an association list from the path relative to the
repository metadata directory (such as HEAD or refs/heads/main) to the
ref file's bytes.  Writes cons a new binding, which shadows any previous
binding of the same path (lookup takes the first match). -/

/-- On-disk ref files. -/
abbrev RefStore := List (Bytes × Bytes)

/-- ASCII bytes spelling HEAD. -/
def headName : Bytes := [72, 69, 65, 68]

/-- ASCII bytes of the symbolic-ref marker, spelling ref-colon-space. -/
def refMarker : Bytes := [114, 101, 102, 58, 32]

/-- ASCII bytes of the branch-heads namespace, spelling
refs/heads followed by a slash. -/
def headsDirPrefix : Bytes := [114, 101, 102, 115, 47, 104, 101, 97, 100, 115, 47]

/-- The file-existence probes of `resolve_ref`: try `git_dir/ref_name`,
then `heads_dir/ref_name`. -/
def findRefFile (s : RefStore) (name : Bytes) : Option Bytes :=
  match s.lookup name with
  | some c => some c
  | none => s.lookup (headsDirPrefix ++ name)

/-- `GitRefs.resolve_ref` as a step relation (the source recursion has
no termination guard, so the model is the graph of the call tree):
HEAD with no HEAD file resolves to `none` before any fallback; a name
found at neither probed path resolves to `none`; a stripped content
starting with the symbolic marker recursively resolves the name after
it; anything else is a direct ref whose stripped content is returned. -/
inductive ResolveRef (s : RefStore) : Bytes → Option Bytes → Prop where
  | headAbsent :
      s.lookup headName = none →
      ResolveRef s headName none
  | notFound (name : Bytes) :
      (name = headName → s.lookup headName ≠ none) →
      findRefFile s name = none →
      ResolveRef s name none
  | symbolic (name content : Bytes) (res : Option Bytes) :
      (name = headName → s.lookup headName ≠ none) →
      findRefFile s name = some content →
      refMarker.isPrefixOf (pyStrip content) = true →
      ResolveRef s ((pyStrip content).drop 5) res →
      ResolveRef s name res
  | direct (name content : Bytes) :
      (name = headName → s.lookup headName ≠ none) →
      findRefFile s name = some content →
      refMarker.isPrefixOf (pyStrip content) = false →
      ResolveRef s name (some (pyStrip content))

/-- `GitRefs.update_ref`: write either the marker plus the target (for a
symbolic ref) or the target itself, stripped and newline-terminated. -/
def gitRefsUpdateRef (s : RefStore) (refName target : Bytes) (symbolic : Bool) :
    RefStore :=
  let content := if symbolic then refMarker ++ target else target
  (refName, pyStrip content ++ [10]) :: s

/-- The failure of the commit-address safety check of
`PyGitRef.update_ref`. -/
inductive RefErr where
  /-- Printed error: not a valid SHA-1 hash; nothing is written. -/
  | invalidSha
  deriving DecidableEq

/-- `PyGitRef.update_ref`: reject the update (leaving the store
untouched) unless the hash has exactly 40 characters, all of them
lower-case hex digits; otherwise delegate to `GitRefs.update_ref` with
`symbolic=False`. -/
def updateRefChecked (s : RefStore) (refName commitHash : Bytes) :
    RefStore × Option RefErr :=
  if commitHash.length = 40 ∧ commitHash.all isLowerHexDigit then
    (gitRefsUpdateRef s refName commitHash false, none)
  else (s, some .invalidSha)

set_option maxRecDepth 100000

/-- Sanity test vector: sha1Hex of the bytes of the string consisting of
the three characters a, b, c is a9993e364706816aba3e25717850c26c9cd0d89d. -/
theorem sha1_testvector_abc :
    sha1Hex [97, 98, 99] =
      [97, 57, 57, 57, 51, 101, 51, 54, 52, 55, 48, 54, 56, 49, 54, 97, 98,
        97, 51, 101, 50, 53, 55, 49, 55, 56, 53, 48, 99, 50, 54, 99, 57, 99,
        100, 48, 100, 56, 57, 100] := by decide

/-! ## Decimal rendering and parsing lemmas -/

/-- Folding the parser's digit step over `natToDecAux` (generalized over
accumulators) for sufficient fuel. -/
theorem natToDecAux_foldl (fuel : Nat) : ∀ (n : Nat) (acc : Bytes) (a : Nat), n ≤ fuel →
    (natToDecAux fuel n acc).foldl (fun x c => x * 10 + (c - 48)) a
      = acc.foldl (fun x c => x * 10 + (c - 48)) (a * 10 ^ digitCount n + n) := by
  induction fuel with
  | zero =>
    intro n acc a hn
    have hn0 : n = 0 := Nat.le_zero.mp hn
    subst hn0
    rw [digitCount]
    simp [natToDecAux]
  | succ fuel ih =>
    intro n acc a hn
    match n with
    | 0 =>
      rw [digitCount]
      simp [natToDecAux]
    | m + 1 =>
      have hdiv : (m + 1) / 10 ≤ fuel := by
        have := Nat.div_lt_self (Nat.succ_pos m) (by omega : 1 < 10)
        omega
      rw [show natToDecAux (fuel + 1) (m + 1) acc
            = natToDecAux fuel ((m + 1) / 10) ((48 + (m + 1) % 10) :: acc) from rfl]
      rw [ih ((m + 1) / 10) ((48 + (m + 1) % 10) :: acc) a hdiv]
      rw [List.foldl_cons]
      have hdc : digitCount (m + 1) = digitCount ((m + 1) / 10) + 1 := by
        rw [digitCount]; simp
      rw [hdc]
      congr 1
      have h48 : 48 + (m + 1) % 10 - 48 = (m + 1) % 10 := by omega
      rw [h48, pow_succ]
      have := Nat.div_add_mod (m + 1) 10
      ring_nf
      omega

/-- All bytes produced by `natToDecAux` over a digit accumulator are
digits. -/
theorem natToDecAux_all (fuel : Nat) : ∀ (n : Nat) (acc : Bytes),
    (∀ c ∈ acc, isDigitByte c = true) →
    ∀ c ∈ natToDecAux fuel n acc, isDigitByte c = true := by
  induction fuel with
  | zero => intro n acc hacc; simpa [natToDecAux] using hacc
  | succ fuel ih =>
    intro n acc hacc
    match n with
    | 0 => simpa [natToDecAux] using hacc
    | m + 1 =>
      rw [show natToDecAux (fuel + 1) (m + 1) acc
            = natToDecAux fuel ((m + 1) / 10) ((48 + (m + 1) % 10) :: acc) from rfl]
      refine ih _ _ ?_
      intro c hc
      rcases List.mem_cons.mp hc with h | h
      · subst h; simp only [isDigitByte]
        have : (m + 1) % 10 < 10 := Nat.mod_lt _ (by omega)
        simp; omega
      · exact hacc c h

/-- `natToDecAux` never shortens its accumulator. -/
theorem natToDecAux_length (fuel : Nat) : ∀ (n : Nat) (acc : Bytes),
    acc.length ≤ (natToDecAux fuel n acc).length := by
  induction fuel with
  | zero => intro n acc; simp [natToDecAux]
  | succ fuel ih =>
    intro n acc
    match n with
    | 0 => simp [natToDecAux]
    | m + 1 =>
      rw [show natToDecAux (fuel + 1) (m + 1) acc
            = natToDecAux fuel ((m + 1) / 10) ((48 + (m + 1) % 10) :: acc) from rfl]
      calc acc.length ≤ ((48 + (m + 1) % 10) :: acc).length := by simp
        _ ≤ _ := ih _ _

/-- Every byte of a rendered decimal is an ASCII digit. -/
theorem natToDecimal_all (n : Nat) : ∀ c ∈ natToDecimal n, isDigitByte c = true := by
  by_cases h : n = 0
  · subst h; intro c hc; simp [natToDecimal] at hc; subst hc; decide
  · rw [natToDecimal, if_neg h]
    exact natToDecAux_all n n [] (by simp)

/-- A rendered decimal is never empty. -/
theorem natToDecimal_ne_nil (n : Nat) : natToDecimal n ≠ [] := by
  by_cases h : n = 0
  · subst h; simp [natToDecimal]
  · rw [natToDecimal, if_neg h]
    match n, h with
    | m + 1, _ =>
      rw [show natToDecAux (m + 1) (m + 1) []
            = natToDecAux m ((m + 1) / 10) [48 + (m + 1) % 10] from rfl]
      have := natToDecAux_length m ((m + 1) / 10) [48 + (m + 1) % 10]
      intro hnil
      rw [hnil] at this
      simp at this

/-- Decimal round-trip: parsing a rendered length gives it back
(`int(str(n)) == n` on the canonical digit strings the store writes). -/
theorem parseDecimal_natToDecimal (n : Nat) : parseDecimal (natToDecimal n) = some n := by
  by_cases h : n = 0
  · subst h; decide
  · rw [parseDecimal, if_neg (natToDecimal_ne_nil n)]
    rw [if_pos (List.all_eq_true.mpr fun c hc => natToDecimal_all n c hc)]
    rw [natToDecimal, if_neg h]
    rw [natToDecAux_foldl n n [] 0 (Nat.le_refl n)]
    simp

/-- A digit byte is not NUL, space, or newline, and is ASCII. -/
theorem isDigitByte_facts {c : Nat} (h : isDigitByte c = true) :
    c ≠ 0 ∧ c ≠ 32 ∧ c ≠ 10 ∧ c < 128 := by
  simp only [isDigitByte, Bool.and_eq_true, decide_eq_true_eq] at h
  omega

/-! ## Byte-splitting lemmas -/

/-- `splitFirst` finds nothing when the separator is absent. -/
theorem splitFirst_of_not_mem {sep : Nat} : ∀ {l : Bytes}, sep ∉ l →
    splitFirst sep l = none := by
  intro l
  induction l with
  | nil => intro _; rfl
  | cons b rest ih =>
    intro h
    have hb : b ≠ sep := fun hb => h (hb ▸ List.mem_cons_self b rest)
    have hrest : sep ∉ rest := fun hr => h (List.mem_cons_of_mem b hr)
    simp only [splitFirst, if_neg hb, ih hrest]

/-- `splitFirst` splits at the first separator occurrence. -/
theorem splitFirst_append {sep : Nat} : ∀ {a : Bytes} (b : Bytes), sep ∉ a →
    splitFirst sep (a ++ sep :: b) = some (a, b) := by
  intro a
  induction a with
  | nil => intro b _; simp [splitFirst]
  | cons x a' ih =>
    intro b h
    have hx : x ≠ sep := fun hx => h (hx ▸ List.mem_cons_self x a')
    have ha' : sep ∉ a' := fun hr => h (List.mem_cons_of_mem x hr)
    simp only [List.cons_append, splitFirst, if_neg hx, List.append_eq]
    rw [ih b ha']

/-- Characterization of a successful `splitFirst`. -/
theorem splitFirst_some_eq {sep : Nat} : ∀ {l a b : Bytes},
    splitFirst sep l = some (a, b) → l = a ++ sep :: b ∧ sep ∉ a := by
  intro l
  induction l with
  | nil => intro a b h; simp [splitFirst] at h
  | cons x rest ih =>
    intro a b h
    simp only [splitFirst] at h
    by_cases hx : x = sep
    · rw [if_pos hx] at h
      obtain ⟨ha, hb⟩ := Prod.mk.injEq .. ▸ Option.some.inj h
      subst ha; subst hb; subst hx
      exact ⟨rfl, by simp⟩
    · rw [if_neg hx] at h
      match hr : splitFirst sep rest with
      | none => rw [hr] at h; simp at h
      | some (a', c) =>
        rw [hr] at h
        simp only [Option.some.injEq, Prod.mk.injEq] at h
        obtain ⟨ha, hb⟩ := h
        obtain ⟨he, hni⟩ := ih hr
        subst hb
        rw [← ha, he]
        constructor
        · simp
        · intro hmem
          rcases List.mem_cons.mp hmem with h1 | h1
          · exact hx h1.symm
          · exact hni h1

/-- `splitAll` on separator-free input returns the single piece. -/
theorem splitAll_of_not_mem {sep : Nat} : ∀ {l : Bytes}, sep ∉ l →
    splitAll sep l = [l] := by
  intro l
  induction l with
  | nil => intro _; rfl
  | cons b rest ih =>
    intro h
    have hb : b ≠ sep := fun hb => h (hb ▸ List.mem_cons_self b rest)
    have hrest : sep ∉ rest := fun hr => h (List.mem_cons_of_mem b hr)
    simp only [splitAll, if_neg hb, ih hrest]

/-- `splitAll` never returns the empty list. -/
theorem splitAll_ne_nil {sep : Nat} : ∀ {l : Bytes}, splitAll sep l ≠ [] := by
  intro l
  induction l with
  | nil => simp [splitAll]
  | cons b rest ih =>
    simp only [splitAll]
    by_cases hb : b = sep
    · simp [if_pos hb]
    · rw [if_neg hb]
      match h : splitAll sep rest with
      | [] => exact absurd h ih
      | x :: t => simp

/-- `splitAll` peels the piece before the first separator. -/
theorem splitAll_append {sep : Nat} : ∀ {a : Bytes} (b : Bytes), sep ∉ a →
    splitAll sep (a ++ sep :: b) = a :: splitAll sep b := by
  intro a
  induction a with
  | nil => intro b _; simp [splitAll]
  | cons x a' ih =>
    intro b h
    have hx : x ≠ sep := fun hx => h (hx ▸ List.mem_cons_self x a')
    have ha' : sep ∉ a' := fun hr => h (List.mem_cons_of_mem x hr)
    simp only [List.cons_append, splitAll, if_neg hx, List.append_eq]
    rw [ih b ha']

/-! ## UTF-8 validity lemmas -/

/-- ASCII byte strings are valid UTF-8. -/
theorem isValidUtf8_of_ascii : ∀ {l : Bytes}, (∀ c ∈ l, c < 128) →
    isValidUtf8 l = true := by
  intro l
  induction l with
  | nil => intro _; rfl
  | cons b rest ih =>
    intro h
    have hb : b < 128 := h b (List.mem_cons_self b rest)
    rw [isValidUtf8, if_pos hb]
    exact ih fun c hc => h c (List.mem_cons_of_mem b hc)

/-- Concatenation preserves UTF-8 validity (length-bounded form). -/
theorem isValidUtf8_append_bounded : ∀ (n : Nat) (a : Bytes), a.length ≤ n →
    isValidUtf8 a = true → ∀ (b : Bytes), isValidUtf8 b = true →
    isValidUtf8 (a ++ b) = true := by
  intro n
  induction n with
  | zero =>
    intro a ha _ b hb
    have : a = [] := List.eq_nil_of_length_eq_zero (Nat.le_zero.mp ha)
    subst this
    simpa using hb
  | succ n ih =>
    intro a hlen hva b hvb
    match a with
    | [] => simpa using hvb
    | b0 :: rest =>
      rw [isValidUtf8] at hva
      rw [List.cons_append, isValidUtf8]
      by_cases h1 : b0 < 128
      · rw [if_pos h1] at hva ⊢
        exact ih rest (by simp at hlen; omega) hva b hvb
      rw [if_neg h1] at hva ⊢
      by_cases h2 : b0 < 194
      · rw [if_pos h2] at hva; exact absurd hva (by simp)
      rw [if_neg h2] at hva ⊢
      by_cases h3 : b0 < 224
      · rw [if_pos h3] at hva ⊢
        match rest with
        | [] => simp [utf8Tail1] at hva
        | c1 :: r =>
          rw [utf8Tail1, Bool.and_eq_true] at hva
          rw [List.cons_append, utf8Tail1, Bool.and_eq_true]
          refine ⟨hva.1, ih r ?_ hva.2 b hvb⟩
          simp at hlen; omega
      rw [if_neg h3] at hva ⊢
      by_cases h4 : b0 < 240
      · rw [if_pos h4] at hva ⊢
        match rest with
        | [] => simp [utf8Tail2] at hva
        | [c1] => simp [utf8Tail2] at hva
        | c1 :: c2 :: r =>
          rw [utf8Tail2, Bool.and_eq_true, Bool.and_eq_true] at hva
          rw [List.cons_append, List.cons_append, utf8Tail2,
            Bool.and_eq_true, Bool.and_eq_true]
          refine ⟨⟨hva.1.1, hva.1.2⟩, ih r ?_ hva.2 b hvb⟩
          simp at hlen; omega
      rw [if_neg h4] at hva ⊢
      by_cases h5 : b0 < 245
      · rw [if_pos h5] at hva ⊢
        match rest with
        | [] => simp [utf8Tail3] at hva
        | [c1] => simp [utf8Tail3] at hva
        | [c1, c2] => simp [utf8Tail3] at hva
        | c1 :: c2 :: c3 :: r =>
          rw [utf8Tail3, Bool.and_eq_true, Bool.and_eq_true, Bool.and_eq_true] at hva
          rw [List.cons_append, List.cons_append, List.cons_append, utf8Tail3,
            Bool.and_eq_true, Bool.and_eq_true, Bool.and_eq_true]
          refine ⟨⟨⟨hva.1.1.1, hva.1.1.2⟩, hva.1.2⟩, ih r ?_ hva.2 b hvb⟩
          simp at hlen; omega
      · rw [if_neg h5] at hva; exact absurd hva (by simp)

/-- Concatenation preserves UTF-8 validity. -/
theorem isValidUtf8_append {a b : Bytes} (ha : isValidUtf8 a = true)
    (hb : isValidUtf8 b = true) : isValidUtf8 (a ++ b) = true :=
  isValidUtf8_append_bounded a.length a (Nat.le_refl _) ha b hb

/-- Sanity: like `str.strip()`, stripping removes a leading NO-BREAK
SPACE U+00A0 (UTF-8 bytes C2 A0), which is not ASCII whitespace. -/
theorem pyStrip_strips_nbsp : pyStrip [194, 160, 120] = [120] := by decide

/-- Sanity: ASCII whitespace is stripped from both ends only. -/
theorem pyStrip_ascii_ends : pyStrip [32, 9, 104, 32, 105, 10] = [104, 32, 105] := by
  decide

/-- Sanity: a trailing IDEOGRAPHIC SPACE U+3000 (bytes E3 80 80) is
stripped, and an interior LINE SEPARATOR U+2028 (bytes E2 80 A8) is
kept re-encoded unchanged. -/
theorem pyStrip_multibyte :
    pyStrip [120, 226, 128, 168, 121, 227, 128, 128] = [120, 226, 128, 168, 121] := by
  decide

/-! ## Hex and digest shape lemmas -/

/-- `bytesToHex` unfolds one byte to its two hex characters. -/
theorem bytesToHex_cons (b : Nat) (l : Bytes) :
    bytesToHex (b :: l) = hexDigitChar (b / 16) :: hexDigitChar (b % 16) :: bytesToHex l :=
  rfl

/-- The hex string has two characters per byte. -/
theorem bytesToHex_length (l : Bytes) : (bytesToHex l).length = 2 * l.length := by
  induction l with
  | nil => rfl
  | cons b l' ih => rw [bytesToHex_cons]; simp [ih]; omega

/-- A nibble renders as a lower-case hex digit. -/
theorem hexDigitChar_isLower {d : Nat} (h : d < 16) :
    isLowerHexDigit (hexDigitChar d) = true := by
  rw [hexDigitChar]
  by_cases h10 : d < 10
  · rw [if_pos h10]; simp [isLowerHexDigit]; omega
  · rw [if_neg h10]; simp [isLowerHexDigit]; omega

/-- All characters of the hex string of genuine bytes are lower-case
hex digits. -/
theorem bytesToHex_all_lower : ∀ {l : Bytes}, (∀ b ∈ l, b < 256) →
    ∀ c ∈ bytesToHex l, isLowerHexDigit c = true := by
  intro l
  induction l with
  | nil => intro _ c hc; simp [bytesToHex] at hc
  | cons b l' ih =>
    intro h c hc
    rw [bytesToHex_cons] at hc
    have hb : b < 256 := h b (List.mem_cons_self b l')
    rcases List.mem_cons.mp hc with h1 | hc'
    · subst h1; exact hexDigitChar_isLower (Nat.div_lt_of_lt_mul (by omega))
    rcases List.mem_cons.mp hc' with h2 | hc''
    · subst h2; exact hexDigitChar_isLower (Nat.mod_lt _ (by omega))
    · exact ih (fun x hx => h x (List.mem_cons_of_mem b hx)) c hc''

/-- A lower-case hex digit is not NUL, space, or newline, and is ASCII. -/
theorem isLowerHexDigit_facts {c : Nat} (h : isLowerHexDigit c = true) :
    c ≠ 0 ∧ c ≠ 32 ∧ c ≠ 10 ∧ c < 128 := by
  simp only [isLowerHexDigit, Bool.or_eq_true, Bool.and_eq_true,
    decide_eq_true_eq] at h
  omega

/-- `beBytes` produces exactly `k` bytes. -/
theorem beBytes_length (k n : Nat) : (beBytes k n).length = k := by
  simp [beBytes]

/-- `beBytes` produces byte values. -/
theorem beBytes_lt (k n : Nat) : ∀ b ∈ beBytes k n, b < 256 := by
  intro b hb
  simp only [beBytes, List.mem_map] at hb
  obtain ⟨i, _, hi⟩ := hb
  rw [← hi]
  exact Nat.mod_lt _ (by omega)

/-- A SHA-1 digest is 20 bytes. -/
theorem sha1_length (m : Bytes) : (sha1 m).length = 20 := by
  simp [sha1, beBytes_length]

/-- A SHA-1 digest consists of byte values. -/
theorem sha1_lt (m : Bytes) : ∀ b ∈ sha1 m, b < 256 := by
  intro b hb
  simp only [sha1, List.append_assoc, List.mem_append] at hb
  rcases hb with h | h | h | h | h <;> exact beBytes_lt _ _ b h

/-- A SHA-1 hex digest has 40 characters. -/
theorem sha1Hex_length (m : Bytes) : (sha1Hex m).length = 40 := by
  rw [sha1Hex, bytesToHex_length, sha1_length]

/-- A SHA-1 hex digest consists of lower-case hex digits. -/
theorem sha1Hex_all_lower (m : Bytes) : ∀ c ∈ sha1Hex m, isLowerHexDigit c = true :=
  bytesToHex_all_lower (sha1_lt m)

/-! ## Object-store lemmas (stage 1) -/

/-- `store_object` returns the content address no matter whether the
object file already existed. -/
theorem storeObject_fst (s : Store) (k c : Bytes) :
    (storeObject s k c).1 = hashContent k c := by
  rw [storeObject]
  cases h : s.lookup (hashContent k c) <;> simp

/-- The frame of `(k, c)` splits at its first NUL into the header and
the payload, provided the kind has no NUL byte. -/
theorem splitFirst_frame (k c : Bytes) (m : Nat) (h0 : 0 ∉ k) :
    splitFirst 0 (k ++ 32 :: natToDecimal m ++ 0 :: c)
      = some (k ++ 32 :: natToDecimal m, c) := by
  have h1 : (k ++ 32 :: natToDecimal m) ++ 0 :: c
      = k ++ 32 :: natToDecimal m ++ 0 :: c := by simp
  rw [← h1]
  apply splitFirst_append
  intro hmem
  rcases List.mem_append.mp hmem with hk | hd
  · exact h0 hk
  rcases List.mem_cons.mp hd with h32 | hdig
  · exact absurd h32 (by decide)
  · have := natToDecimal_all m 0 hdig
    simp [isDigitByte] at this

/-- Retrieving an address that stores a syntactically well-formed frame
checks the declared length against the payload. -/
theorem retrieveObject_lookup_frame (s : Store) (h k payload : Bytes) (m : Nat)
    (hl : s.lookup h = some (k ++ 32 :: natToDecimal m ++ 0 :: payload))
    (h0 : 0 ∉ k) (h32 : 32 ∉ k) (hu : isValidUtf8 k = true) :
    retrieveObject s h =
      if payload.length = m then .ok (k, payload) else .error (.corrupted h) := by
  have hdig32 : (32 : Nat) ∉ natToDecimal m := by
    intro hmem
    have := natToDecimal_all m 32 hmem
    simp [isDigitByte] at this
  have hutf8 : isValidUtf8 (k ++ 32 :: natToDecimal m) = true := by
    refine isValidUtf8_append hu (isValidUtf8_of_ascii ?_)
    intro x hx
    rcases List.mem_cons.mp hx with h1 | h1
    · omega
    · exact (isDigitByte_facts (natToDecimal_all m x h1)).2.2.2
  have hsplitAll : splitAll 32 (k ++ 32 :: natToDecimal m)
      = [k, natToDecimal m] := by
    rw [splitAll_append _ h32, splitAll_of_not_mem hdig32]
  rw [retrieveObject, hl]
  simp only
  rw [splitFirst_frame k payload m h0]
  simp only
  rw [if_pos hutf8, hsplitAll]
  simp only
  rw [parseDecimal_natToDecimal]

/-- The frame is literally kind, space, decimal length, NUL, payload. -/
theorem frameBytes_eq (k c : Bytes) :
    frameBytes k c = k ++ 32 :: natToDecimal c.length ++ 0 :: c := rfl

/-- Retrieving the address returned by `store_object` returns exactly
the stored kind and content, for any kind token (no space, no NUL,
valid encoding of a `str`) and any prior state in which the derived
address is unused or holds this very object. -/
theorem retrieveObject_storeObject (s : Store) (k c : Bytes)
    (h32 : 32 ∉ k) (h0 : 0 ∉ k) (hu : isValidUtf8 k = true)
    (hfresh : s.lookup (hashContent k c) = none ∨
      s.lookup (hashContent k c) = some (frameBytes k c)) :
    retrieveObject (storeObject s k c).2 (storeObject s k c).1 = .ok (k, c) := by
  have main : ∀ s' : Store, s'.lookup (hashContent k c) = some (frameBytes k c) →
      retrieveObject s' (hashContent k c) = .ok (k, c) := by
    intro s' hl
    rw [frameBytes_eq] at hl
    rw [retrieveObject_lookup_frame s' _ k c c.length hl h0 h32 hu]
    simp
  rcases hfresh with hnone | hsome
  · rw [storeObject, hnone]
    simp only
    refine main _ ?_
    simp [List.lookup]
  · rw [storeObject, hsome]
    simp only
    exact main s hsome

/-! ## Claim theorems: object store -/

/-- C1: for every kind and content, the address returned by
`store_object` is the lower-case 40-hex SHA-1 digest of the framed
bytes, and it is independent of the prior store state (determinism). -/
theorem claim_store_address_sha1 (s : Store) (kind content : Bytes) :
    (storeObject s kind content).1 = sha1Hex (frameBytes kind content)
    ∧ (storeObject s kind content).1.length = 40
    ∧ (∀ c ∈ (storeObject s kind content).1, isLowerHexDigit c = true)
    ∧ ∀ s' : Store, (storeObject s' kind content).1 = (storeObject s kind content).1 := by
  rw [storeObject_fst]
  exact ⟨rfl, sha1Hex_length _, sha1Hex_all_lower _,
    fun s' => by rw [storeObject_fst]⟩

/-- C2: get after put is the identity on the stored pair, for every
kind token (no space and no NUL byte — i.e. the byte encoding of a
one-token `str`) and every content, when the derived address is not
already occupied by a different object. -/
theorem claim_get_after_put (s : Store) (kind content : Bytes)
    (hsp : 32 ∉ kind) (hnul : 0 ∉ kind) (hutf : isValidUtf8 kind = true)
    (hfresh : s.lookup (hashContent kind content) = none ∨
      s.lookup (hashContent kind content) = some (frameBytes kind content)) :
    retrieveObject (storeObject s kind content).2 (storeObject s kind content).1
      = .ok (kind, content) :=
  retrieveObject_storeObject s kind content hsp hnul hutf hfresh

/-- C2 witness: storing an empty blob in the empty store and reading it
back. -/
theorem claim_get_after_put_witness :
    retrieveObject (storeObject [] blobKind []).2 (storeObject [] blobKind []).1
      = .ok (blobKind, []) :=
  claim_get_after_put [] blobKind [] (by decide) (by decide) (by decide)
    (Or.inl rfl)

/-- C3: put returns the digest whether or not the object exists, a
second put of the same pair changes nothing and returns the same
address, and a put whose address is already present writes nothing. -/
theorem claim_put_idempotent (s : Store) (kind content : Bytes) :
    (storeObject s kind content).1 = hashContent kind content
    ∧ storeObject (storeObject s kind content).2 kind content
        = (hashContent kind content, (storeObject s kind content).2)
    ∧ (∀ v, s.lookup (hashContent kind content) = some v →
        storeObject s kind content = (hashContent kind content, s)) := by
  refine ⟨storeObject_fst s kind content, ?_, ?_⟩
  · cases h : s.lookup (hashContent kind content) with
    | some v =>
      have hinner : storeObject s kind content = (hashContent kind content, s) := by
        rw [storeObject, h]
      rw [hinner]
      simp only
      exact hinner
    | none =>
      have hinner : storeObject s kind content
          = (hashContent kind content,
              (hashContent kind content, frameBytes kind content) :: s) := by
        rw [storeObject, h]
      rw [hinner]
      simp only
      rw [storeObject]
      rw [show List.lookup (hashContent kind content)
            ((hashContent kind content, frameBytes kind content) :: s)
          = some (frameBytes kind content) by simp [List.lookup]]
  · intro v hv
    rw [storeObject, hv]

/-- C3 witness: re-storing an empty blob into a store that already holds
it leaves the store exactly as it was. -/
theorem claim_put_idempotent_witness :
    storeObject [(hashContent blobKind [], frameBytes blobKind [])] blobKind []
      = (hashContent blobKind [], [(hashContent blobKind [], frameBytes blobKind [])]) :=
  (claim_put_idempotent [(hashContent blobKind [], frameBytes blobKind [])]
    blobKind []).2.2 (frameBytes blobKind []) (by simp [List.lookup])

/-- C4: get on an unused address reports object-not-found, and get on a
stored frame whose declared length differs from the payload length
reports corruption; both are errors, not silent results. -/
theorem claim_get_failures :
    (∀ (s : Store) (h : Bytes), s.lookup h = none →
      retrieveObject s h = .error (.notFound h))
    ∧ (∀ (s : Store) (h kind payload : Bytes) (m : Nat),
        s.lookup h = some (kind ++ 32 :: natToDecimal m ++ 0 :: payload) →
        0 ∉ kind → 32 ∉ kind → isValidUtf8 kind = true →
        m ≠ payload.length →
        retrieveObject s h = .error (.corrupted h)) := by
  constructor
  · intro s h hl
    rw [retrieveObject, hl]
  · intro s h kind payload m hl h0 h32 hu hm
    rw [retrieveObject_lookup_frame s h kind payload m hl h0 h32 hu]
    rw [if_neg (fun hc => hm hc.symm)]

/-- C4 witness: an empty store reports not-found, and a stored frame
declaring length 2 over a 1-byte payload reports corruption. -/
theorem claim_get_failures_witness :
    retrieveObject [] [97] = .error (.notFound [97])
    ∧ retrieveObject [([97], [98, 32, 50, 0, 120])] [97]
        = .error (.corrupted [97]) := by
  constructor
  · exact claim_get_failures.1 [] [97] rfl
  · exact claim_get_failures.2 [([97], [98, 32, 50, 0, 120])] [97] [98] [120] 2
      (by decide) (by decide) (by decide) (by decide) (by decide)

/-! ## Byte-order and stable-sort lemmas (stage 2) -/

/-- Strict byte order is irreflexive. -/
theorem bytesLt_irrefl : ∀ a : Bytes, bytesLt a a = false := by
  intro a
  induction a with
  | nil => rfl
  | cons x as ih => simp [bytesLt, ih]

/-- Nothing is strictly below the empty byte string. -/
theorem bytesLt_nil_right : ∀ b : Bytes, bytesLt b [] = false := by
  intro b
  cases b <;> rfl

/-- Strict byte order is transitive. -/
theorem bytesLt_trans : ∀ {a b c : Bytes}, bytesLt a b = true → bytesLt b c = true →
    bytesLt a c = true := by
  intro a
  induction a with
  | nil =>
    intro b c _ hbc
    match c with
    | [] => rw [bytesLt_nil_right] at hbc; exact absurd hbc (by simp)
    | _ :: _ => rfl
  | cons x as ih =>
    intro b c hab hbc
    match b, c with
    | [], _ => exact absurd hab (by simp [bytesLt])
    | _ :: _, [] => rw [bytesLt_nil_right] at hbc; exact absurd hbc (by simp)
    | y :: bs, z :: cs =>
      simp only [bytesLt] at hab hbc ⊢
      by_cases hxy : x < y
      · rw [if_pos hxy] at hab
        by_cases hyz : y < z
        · rw [if_pos (by omega : x < z)]
        · rw [if_neg hyz] at hbc
          by_cases hzy : z < y
          · rw [if_pos hzy] at hbc; exact absurd hbc (by simp)
          · have : y = z := by omega
            subst this
            rw [if_pos hxy]
      · rw [if_neg hxy] at hab
        by_cases hyx : y < x
        · rw [if_pos hyx] at hab; exact absurd hab (by simp)
        · rw [if_neg hyx] at hab
          have hxe : x = y := by omega
          subst hxe
          by_cases hxz : x < z
          · rw [if_pos hxz]
          · rw [if_neg hxz] at hbc ⊢
            by_cases hzx : z < x
            · rw [if_pos hzx] at hbc; exact absurd hbc (by simp)
            · rw [if_neg hzx] at hbc ⊢
              exact ih hab hbc

/-- Two byte strings neither of which is below the other are equal. -/
theorem bytesLt_antisymm_eq : ∀ {a b : Bytes}, bytesLt a b = false →
    bytesLt b a = false → a = b := by
  intro a
  induction a with
  | nil =>
    intro b hab _
    match b with
    | [] => rfl
    | _ :: _ => exact absurd hab (by simp [bytesLt])
  | cons x as ih =>
    intro b hab hba
    match b with
    | [] => exact absurd hba (by simp [bytesLt])
    | y :: bs =>
      simp only [bytesLt] at hab hba
      by_cases hxy : x < y
      · rw [if_pos hxy] at hab; exact absurd hab (by simp)
      · rw [if_neg hxy] at hab
        by_cases hyx : y < x
        · rw [if_pos hyx] at hba; exact absurd hba (by simp)
        · rw [if_neg hyx] at hab
          rw [if_neg hyx, if_neg hxy] at hba
          have : x = y := by omega
          subst this
          rw [ih hab hba]

/-- Strict byte order is asymmetric. -/
theorem bytesLt_asymm {a b : Bytes} (h : bytesLt a b = true) : bytesLt b a = false := by
  cases hh : bytesLt b a with
  | false => rfl
  | true =>
    have := bytesLt_trans h hh
    rw [bytesLt_irrefl] at this
    exact absurd this (by simp)

/-- Not-below is transitive (derived from trichotomy and transitivity). -/
theorem bytesLt_nle_trans {x y z : Bytes} (hzy : bytesLt z y = false)
    (hyx : bytesLt y x = false) : bytesLt z x = false := by
  cases hzx : bytesLt z x with
  | false => rfl
  | true =>
    cases hxy : bytesLt x y with
    | true =>
      rw [bytesLt_trans hzx hxy] at hzy
      exact absurd hzy (by simp)
    | false =>
      have hxe : x = y := bytesLt_antisymm_eq hxy hyx
      subst hxe
      rw [hzx] at hzy
      exact absurd hzy (by simp)

/-- Inserting permutes to consing. -/
theorem insertStable_perm {α : Type} (lt : α → α → Bool) (x : α) :
    ∀ l : List α, List.Perm (insertStable lt x l) (x :: l) := by
  intro l
  induction l with
  | nil => exact List.Perm.refl _
  | cons y ys ih =>
    rw [insertStable]
    by_cases h : lt y x = true
    · rw [if_pos h]
      exact ((ih.cons y).trans (List.Perm.swap x y ys))
    · rw [if_neg h]

/-- The stable sort permutes its input. -/
theorem stableSort_perm {α : Type} (lt : α → α → Bool) :
    ∀ l : List α, List.Perm (stableSort lt l) l := by
  intro l
  induction l with
  | nil => exact List.Perm.refl _
  | cons x xs ih =>
    rw [stableSort]
    exact (insertStable_perm lt x (stableSort lt xs)).trans (ih.cons x)

/-- `insertStable` preserves sortedness of a name-keyed order. -/
theorem insertStable_pairwise {α : Type} (lt : α → α → Bool)
    (hco : ∀ x y z : α, lt z y = false → lt y x = false → lt z x = false)
    (hasym : ∀ x y : α, lt x y = true → lt y x = false)
    (x : α) : ∀ l : List α, List.Pairwise (fun a b => lt b a = false) l →
    List.Pairwise (fun a b => lt b a = false) (insertStable lt x l) := by
  intro l
  induction l with
  | nil => intro _; exact List.pairwise_singleton _ x
  | cons y ys ih =>
    intro hp
    obtain ⟨hy, hys⟩ := List.pairwise_cons.mp hp
    rw [insertStable]
    by_cases h : lt y x = true
    · rw [if_pos h]
      refine List.pairwise_cons.mpr ⟨?_, ih hys⟩
      intro z hz
      have hz' : z ∈ x :: ys := (insertStable_perm lt x ys).mem_iff.mp hz
      rcases List.mem_cons.mp hz' with h1 | h1
      · subst h1; exact hasym y z h
      · exact hy z h1
    · rw [if_neg h]
      refine List.pairwise_cons.mpr ⟨?_, hp⟩
      intro z hz
      have hnyx : lt y x = false := by
        cases hh : lt y x
        · rfl
        · exact absurd hh h
      rcases List.mem_cons.mp hz with h1 | h1
      · subst h1; exact hnyx
      · exact hco x y z (hy z h1) hnyx

/-- The stable sort sorts (name-keyed order). -/
theorem stableSort_pairwise {α : Type} (lt : α → α → Bool)
    (hco : ∀ x y z : α, lt z y = false → lt y x = false → lt z x = false)
    (hasym : ∀ x y : α, lt x y = true → lt y x = false) :
    ∀ l : List α, List.Pairwise (fun a b => lt b a = false) (stableSort lt l) := by
  intro l
  induction l with
  | nil => exact List.Pairwise.nil
  | cons x xs ih =>
    rw [stableSort]
    exact insertStable_pairwise lt hco hasym x _ ih

/-- The entry order of `_build_tree_content`: strictly below by name. -/
def entryLt (a b : TEntry) : Bool := bytesLt a.name b.name

/-- Sorted lists with pairwise-distinct names that are permutations of
each other are equal: sorting by name determines the list. -/
theorem sorted_perm_nodup_eq : ∀ (l₁ l₂ : List TEntry), List.Perm l₁ l₂ →
    List.Pairwise (fun a b => entryLt b a = false) l₁ →
    List.Pairwise (fun a b => entryLt b a = false) l₂ →
    (l₁.map TEntry.name).Nodup → l₁ = l₂ := by
  intro l₁
  induction l₁ with
  | nil => intro l₂ hperm _ _ _; exact (hperm.nil_eq).symm ▸ rfl
  | cons a t₁ ih =>
    intro l₂ hperm hp₁ hp₂ hnd
    match l₂ with
    | [] => exact absurd hperm.symm.nil_eq (by simp)
    | b :: t₂ =>
      obtain ⟨ha, ht₁⟩ := List.pairwise_cons.mp hp₁
      obtain ⟨hb, ht₂⟩ := List.pairwise_cons.mp hp₂
      have hab : a = b := by
        by_cases heq : a = b
        · exact heq
        · have haml₂ : a ∈ b :: t₂ := hperm.mem_iff.mp (List.mem_cons_self a t₁)
          have hbml₁ : b ∈ a :: t₁ := hperm.symm.mem_iff.mp (List.mem_cons_self b t₂)
          have hat₂ : a ∈ t₂ := by
            rcases List.mem_cons.mp haml₂ with h1 | h1
            · exact absurd h1 heq
            · exact h1
          have hbt₁ : b ∈ t₁ := by
            rcases List.mem_cons.mp hbml₁ with h1 | h1
            · exact absurd h1.symm heq
            · exact h1
          have h1 : entryLt b a = false := ha b hbt₁
          have h2 : entryLt a b = false := hb a hat₂
          have hname : a.name = b.name :=
            bytesLt_antisymm_eq (by simpa [entryLt] using h2) (by simpa [entryLt] using h1)
          have : a.name ∈ t₁.map TEntry.name := by
            rw [hname]
            exact List.mem_map_of_mem TEntry.name hbt₁
          rw [List.map_cons] at hnd
          exact absurd this (List.nodup_cons.mp hnd).1
      subst hab
      have ht : List.Perm t₁ t₂ := hperm.cons_inv
      rw [List.map_cons] at hnd
      rw [ih t₂ ht ht₁ ht₂ (List.nodup_cons.mp hnd).2]

/-- With pairwise-distinct names, sorting by name is invariant under
permutation of the input. -/
theorem sortByName_eq_of_perm (l₁ l₂ : List TEntry) (hperm : List.Perm l₁ l₂)
    (hnd : (l₁.map TEntry.name).Nodup) : sortByName l₁ = sortByName l₂ := by
  have hco : ∀ x y z : TEntry, entryLt z y = false → entryLt y x = false →
      entryLt z x = false := by
    intro x y z h1 h2
    simp only [entryLt] at h1 h2 ⊢
    exact bytesLt_nle_trans h1 h2
  have hasym : ∀ x y : TEntry, entryLt x y = true → entryLt y x = false := by
    intro x y h
    simp only [entryLt] at h ⊢
    exact bytesLt_asymm h
  have hlt : (fun a b : TEntry => bytesLt a.name b.name) = entryLt := rfl
  rw [sortByName, sortByName, hlt]
  refine sorted_perm_nodup_eq _ _ ?_ ?_ ?_ ?_
  · exact ((stableSort_perm entryLt l₁).trans hperm).trans (stableSort_perm entryLt l₂).symm
  · exact stableSort_pairwise entryLt hco hasym l₁
  · exact stableSort_pairwise entryLt hco hasym l₂
  · have : List.Perm ((stableSort entryLt l₁).map TEntry.name) (l₁.map TEntry.name) :=
      (stableSort_perm entryLt l₁).map TEntry.name
    exact this.nodup_iff.mpr hnd

/-! ## Claim theorems: tree serialization order (C5) -/

/-- C5 counterexample: two entries sharing one name but holding
different child addresses serialize differently under the two orders —
the stable sort by name alone preserves the input order of equal names,
so permutation invariance fails for duplicate names. -/
theorem claim_tree_order_counterexample :
    buildTreeContent
        [⟨modeRegular, blobKind, List.replicate 40 48, [97]⟩,
         ⟨modeRegular, blobKind, List.replicate 40 102, [97]⟩]
      ≠ buildTreeContent
        [⟨modeRegular, blobKind, List.replicate 40 102, [97]⟩,
         ⟨modeRegular, blobKind, List.replicate 40 48, [97]⟩] := by
  decide

/-- C5 (amended): tree serialization sorts entries by name, so for
every entry list whose names are pairwise distinct — as is the case for
the children of one directory — every permutation of the list yields
byte-identical tree content. -/
theorem claim_tree_order_invariant (l₁ l₂ : List TEntry)
    (hperm : List.Perm l₁ l₂) (hnd : (l₁.map TEntry.name).Nodup) :
    buildTreeContent l₁ = buildTreeContent l₂ := by
  rw [buildTreeContent, buildTreeContent, sortByName_eq_of_perm l₁ l₂ hperm hnd]

/-- C5 witness: two distinct-name entries in either order produce the
same serialized tree bytes. -/
theorem claim_tree_order_invariant_witness :
    buildTreeContent
        [⟨modeRegular, blobKind, List.replicate 40 48, [97]⟩,
         ⟨modeRegular, blobKind, List.replicate 40 102, [98]⟩]
      = buildTreeContent
        [⟨modeRegular, blobKind, List.replicate 40 102, [98]⟩,
         ⟨modeRegular, blobKind, List.replicate 40 48, [97]⟩] :=
  claim_tree_order_invariant _ _ (by decide) (by decide)

/-! ## Tree-builder absence lemmas (C6) -/

/-- `yieldsAbsentAll` is the conjunction of the per-child condition. -/
theorem yieldsAbsentAll_eq_all : ∀ l : List FSEntry,
    yieldsAbsentAll l = l.all fun c => startsWithDot c.name || yieldsAbsent c := by
  intro l
  induction l with
  | nil => rfl
  | cons c rest ih => rw [yieldsAbsentAll, ih, List.all_cons]

/-- `yieldsAbsentAll` is invariant under permutation. -/
theorem yieldsAbsentAll_of_perm {l₁ l₂ : List FSEntry} (h : List.Perm l₁ l₂)
    (ha : yieldsAbsentAll l₁ = true) : yieldsAbsentAll l₂ = true := by
  rw [yieldsAbsentAll_eq_all, List.all_eq_true] at ha ⊢
  intro c hc
  exact ha c (h.mem_iff.mpr hc)

/-- The recursive build of a directory whose entries all get skipped or
yield absent subtrees returns absent and leaves the store untouched
(size-bounded mutual statement). -/
theorem absent_build (k : Nat) :
    (∀ (l : List FSEntry) (s : Store), sizeFSList l ≤ k → yieldsAbsentAll l = true →
      processItems s l = ([], s))
    ∧ (∀ (dirName : Bytes) (ch : List FSEntry) (s : Store), sizeFSList ch ≤ k →
      (dirName = GIT_DIR ∨ yieldsAbsentAll ch = true) →
      createTreeFromDirectory s dirName ch = (none, s)) := by
  induction k using Nat.strong_induction_on with
  | _ k ihk =>
    have hp : ∀ (l : List FSEntry) (s : Store), sizeFSList l ≤ k →
        yieldsAbsentAll l = true → processItems s l = ([], s) := by
      intro l
      induction l with
      | nil => intro s _ _; simp [processItems]
      | cons item rest ihl =>
        intro s hsize hall
        rw [yieldsAbsentAll, Bool.and_eq_true] at hall
        obtain ⟨hitem, hrest⟩ := hall
        have hsi := sizeFS_pos item
        have hsr : sizeFSList rest ≤ k := by rw [sizeFSList] at hsize; omega
        by_cases hdot : startsWithDot item.name = true
        · rw [processItems.eq_def]
          simp only [hdot, if_true]
          exact ihl s hsr hrest
        · have hya : yieldsAbsent item = true := by
            rw [Bool.or_eq_true] at hitem
            rcases hitem with h | h
            · exact absurd h hdot
            · exact h
          match item with
          | .file n ex c => rw [yieldsAbsent] at hya; exact absurd hya (by simp)
          | .dir n ch =>
            rw [yieldsAbsent, Bool.or_eq_true] at hya
            have hlt : sizeFSList ch < k := by
              rw [sizeFSList, sizeFS] at hsize
              omega
            have hctd : createTreeFromDirectory s n ch = (none, s) := by
              refine (ihk (sizeFSList ch) hlt).2 n ch s (Nat.le_refl _) ?_
              rcases hya with h | h
              · exact Or.inl (by simpa using h)
              · exact Or.inr h
            rw [processItems.eq_def]
            simp only [if_neg hdot, hctd]
            exact ihl s hsr hrest
    refine ⟨hp, ?_⟩
    intro dirName ch s hsize hcase
    by_cases hgit : dirName = GIT_DIR
    · rw [createTreeFromDirectory, if_pos hgit]
    · have habs : yieldsAbsentAll ch = true := by
        rcases hcase with h | h
        · exact absurd h hgit
        · exact h
      have hsort : yieldsAbsentAll (sortChildren ch) = true :=
        yieldsAbsentAll_of_perm (stableSort_perm _ ch).symm habs
      have hsize' : sizeFSList (sortChildren ch) ≤ k := by
        rw [sizeFSList_sortChildren]; exact hsize
      have hpi : processItems s (sortChildren ch) = ([], s) := hp _ s hsize' hsort
      rw [createTreeFromDirectory, if_neg hgit]
      simp only [hpi]
      simp

/-- C6: (i) when the final entry list is empty the build returns absent
and stores no tree object — the resulting store is exactly the store
left by processing the children; (ii) a subdirectory whose recursive
build returns absent is omitted entirely from the parent's entry list;
(iii) a directory whose children are recursively only hidden entries or
absent directories yields absent with the store untouched. -/
theorem claim_empty_tree_absent (s : Store) (dirName : Bytes)
    (children : List FSEntry) :
    (dirName ≠ GIT_DIR → (processItems s (sortChildren children)).1 = [] →
      createTreeFromDirectory s dirName children
        = (none, (processItems s (sortChildren children)).2))
    ∧ (∀ (subName : Bytes) (subCh rest : List FSEntry) (s₁ : Store),
        startsWithDot subName = false →
        createTreeFromDirectory s subName subCh = (none, s₁) →
        processItems s (FSEntry.dir subName subCh :: rest) = processItems s₁ rest)
    ∧ (yieldsAbsent (FSEntry.dir dirName children) = true →
        createTreeFromDirectory s dirName children = (none, s)) := by
  refine ⟨?_, ?_, ?_⟩
  · intro hgit hempty
    rw [createTreeFromDirectory, if_neg hgit]
    rcases hpe : processItems s (sortChildren children) with ⟨entries, s'⟩
    rw [hpe] at hempty
    simp only at hempty
    subst hempty
    simp [hpe]
  · intro subName subCh rest s₁ hdot hctd
    rw [processItems.eq_def]
    simp only [FSEntry.name, hdot, Bool.false_eq_true, if_false, hctd]
  · intro hya
    rw [yieldsAbsent, Bool.or_eq_true] at hya
    refine (absent_build (sizeFSList children)).2 dirName children s (Nat.le_refl _) ?_
    rcases hya with h | h
    · exact Or.inl (by simpa using h)
    · exact Or.inr h

/-- C6 witness: a directory holding one empty subdirectory and one
hidden file yields absent from the empty store, which stays empty. -/
theorem claim_empty_tree_absent_witness :
    yieldsAbsent (FSEntry.dir [97] [FSEntry.dir [98] [], FSEntry.file [46, 99] false [1]])
        = true
    ∧ createTreeFromDirectory [] [97] [FSEntry.dir [98] [], FSEntry.file [46, 99] false [1]]
        = (none, []) :=
  ⟨by decide,
    (claim_empty_tree_absent [] [97]
      [FSEntry.dir [98] [], FSEntry.file [46, 99] false [1]]).2.2 (by decide)⟩

/-! ## Tree-parse loop lemmas (C7) -/

/-- The parse loop accepts the empty buffer at any fuel. -/
theorem parseTreeLoop_nil : ∀ fuel : Nat, parseTreeLoop fuel [] = .ok [] := by
  intro fuel
  cases fuel <;> rfl

/-- The parse loop ends silently when the buffer has no NUL byte. -/
theorem parseTreeLoop_no_nul (fuel : Nat) (l : Bytes) (h : (0 : Nat) ∉ l) :
    parseTreeLoop fuel l = .ok [] := by
  cases fuel with
  | zero => rfl
  | succ fuel => rw [parseTreeLoop, splitFirst_of_not_mem h]

/-- One step of the parse loop on a buffer whose first NUL terminates
the leading header. -/
theorem parseTreeLoop_step (modeName rest : Bytes) (k : Nat)
    (hnul : (0 : Nat) ∉ modeName) :
    parseTreeLoop (k + 1) (modeName ++ 0 :: rest)
      = if isValidUtf8 modeName then
          match splitFirst 32 modeName with
          | none => .error .noSpace
          | some (mode, name) =>
            match parseTreeLoop k (rest.drop 20) with
            | .ok es => .ok ((mode, name, bytesToHex (rest.take 20)) :: es)
            | .error e => .error e
        else .error .decodeError := by
  rw [parseTreeLoop, splitFirst_append rest hnul]

/-- The fuel does not matter once it covers the buffer length. -/
theorem parseTreeLoop_fuel : ∀ (f₁ f₂ : Nat) (l : Bytes), l.length ≤ f₁ →
    l.length ≤ f₂ → parseTreeLoop f₁ l = parseTreeLoop f₂ l := by
  intro f₁
  induction f₁ with
  | zero =>
    intro f₂ l h₁ _
    have : l = [] := List.eq_nil_of_length_eq_zero (Nat.le_zero.mp h₁)
    subst this
    rw [parseTreeLoop_nil, parseTreeLoop_nil]
  | succ f₁ ih =>
    intro f₂ l h₁ h₂
    match f₂ with
    | 0 =>
      have : l = [] := List.eq_nil_of_length_eq_zero (Nat.le_zero.mp h₂)
      subst this
      rw [parseTreeLoop_nil, parseTreeLoop_nil]
    | f₂ + 1 =>
      cases hsp : splitFirst 0 l with
      | none =>
        rw [parseTreeLoop, parseTreeLoop, hsp]
      | some p =>
        obtain ⟨modeName, rest⟩ := p
        obtain ⟨hleq, hnul⟩ := splitFirst_some_eq hsp
        have hrest : rest.length ≤ l.length - 1 := by
          rw [hleq]; simp
        have hdrop : (rest.drop 20).length ≤ f₁ := by
          rw [List.length_drop]; omega
        have hdrop' : (rest.drop 20).length ≤ f₂ := by
          rw [List.length_drop]; omega
        subst hleq
        rw [parseTreeLoop_step _ _ _ hnul, parseTreeLoop_step _ _ _ hnul]
        rw [ih f₂ (rest.drop 20) hdrop hdrop']

/-- C7 counterexample: a buffer holding one well-formed record followed
by a trailing record with no NUL byte parses without error — the loop
breaks silently on the well-formed prefix instead of signalling a parse
error. -/
theorem claim_tree_parse_counterexample :
    parseTreeEntries
        ([52, 48, 48, 48, 48, 32, 97, 0] ++ List.replicate 20 0 ++ [106, 107])
      = .ok [([52, 48, 48, 48, 48], [97], bytesToHex (List.replicate 20 0))] := rfl

/-- C7 (amended): the scan finds the NUL ending each mode-name header
and consumes the next up-to-20 bytes as the child address; a buffer
with no NUL (in particular a trailing truncated record) ends the walk
silently with the records parsed so far; fewer than 20 bytes after the
NUL are consumed without error, yielding a short address; only a header
with no space aborts with an error. -/
theorem claim_tree_parse_behavior :
    (∀ l : Bytes, (0 : Nat) ∉ l → parseTreeEntries l = .ok [])
    ∧ (∀ mode name rest : Bytes, (0 : Nat) ∉ mode → (0 : Nat) ∉ name →
        (32 : Nat) ∉ mode → isValidUtf8 (mode ++ 32 :: name) = true →
        parseTreeEntries (mode ++ 32 :: name ++ 0 :: rest)
          = (parseTreeEntries (rest.drop 20)).map
              (fun es => (mode, name, bytesToHex (rest.take 20)) :: es))
    ∧ (∀ modeName rest : Bytes, (0 : Nat) ∉ modeName → (32 : Nat) ∉ modeName →
        isValidUtf8 modeName = true →
        parseTreeEntries (modeName ++ 0 :: rest) = .error .noSpace) := by
  refine ⟨?_, ?_, ?_⟩
  · intro l h
    rw [parseTreeEntries]
    exact parseTreeLoop_no_nul _ l h
  · intro mode name rest h0m h0n h32 hutf
    have hassoc : mode ++ 32 :: name ++ 0 :: rest
        = (mode ++ 32 :: name) ++ 0 :: rest := by simp
    have hnul : (0 : Nat) ∉ mode ++ 32 :: name := by
      intro hmem
      rcases List.mem_append.mp hmem with h | h
      · exact h0m h
      rcases List.mem_cons.mp h with h | h
      · exact absurd h (by decide)
      · exact h0n h
    have hlen : (mode ++ 32 :: name ++ 0 :: rest).length
        = (mode.length + name.length + rest.length + 1) + 1 := by
      simp; omega
    rw [parseTreeEntries, hlen, hassoc, parseTreeLoop_step _ _ _ hnul, if_pos hutf,
      splitFirst_append name h32]
    have hfuel : parseTreeLoop (mode.length + name.length + rest.length + 1)
        (rest.drop 20) = parseTreeEntries (rest.drop 20) := by
      rw [parseTreeEntries]
      refine parseTreeLoop_fuel _ _ _ ?_ (Nat.le_refl _)
      rw [List.length_drop]
      omega
    rw [hfuel]
    cases parseTreeEntries (rest.drop 20) <;> rfl
  · intro modeName rest h0 h32 hutf
    have hlen : (modeName ++ 0 :: rest).length
        = (modeName.length + rest.length) + 1 := by simp; omega
    rw [parseTreeEntries, hlen, parseTreeLoop_step _ _ _ h0, if_pos hutf,
      splitFirst_of_not_mem h32]

/-- C7 witness: a one-byte header with no space aborts the scan with a
parse error. -/
theorem claim_tree_parse_behavior_witness :
    parseTreeEntries [52, 0] = .error .noSpace :=
  claim_tree_parse_behavior.2.2 [52] [] (by decide) (by decide) (by decide)

/-! ## Commit-content lemmas (C8) -/

/-- The last element of a list is a member, so an absent byte is not the
last. -/
theorem getLast?_not_mem {l : Bytes} {x : Nat} (h : x ∉ l) :
    l.getLast? ≠ some x := by
  intro hh
  obtain ⟨hne, heq⟩ := List.mem_getLast?_eq_getLast (Option.mem_def.mpr hh)
  exact h (heq ▸ List.getLast_mem hne)

/-- The head of a list is a member, so an absent byte is not the head. -/
theorem head?_not_mem {l : Bytes} {x : Nat} (h : x ∉ l) : l.head? ≠ some x := by
  cases l with
  | nil => simp
  | cons a t =>
    intro hh
    have : a = x := by simpa using hh
    exact h (this ▸ List.mem_cons_self a t)

/-- `joinBytes` on a list with at least two pieces. -/
theorem joinBytes_cons₂ (sep : Nat) (a b : Bytes) (t : List Bytes) :
    joinBytes sep (a :: b :: t) = a ++ sep :: joinBytes sep (b :: t) := rfl

/-- Appending the blank line and the message to nonempty header lines
produces the double newline boundary. -/
theorem joinBytes_blank_message : ∀ (lines : List Bytes) (M : Bytes), lines ≠ [] →
    joinBytes 10 (lines ++ [[], M]) = joinBytes 10 lines ++ 10 :: 10 :: M := by
  intro lines
  induction lines with
  | nil => intro M h; exact absurd rfl h
  | cons l ls ih =>
    intro M _
    cases ls with
    | nil => rfl
    | cons l₂ t =>
      rw [show (l :: l₂ :: t) ++ [[], M] = l :: ((l₂ :: t) ++ [[], M]) from rfl]
      rw [show (l₂ :: t) ++ [[], M] = l₂ :: (t ++ [[], M]) from rfl]
      rw [joinBytes_cons₂]
      rw [show l₂ :: (t ++ [[], M]) = (l₂ :: t) ++ [[], M] from rfl]
      rw [ih M (by simp)]
      rw [joinBytes_cons₂]
      simp

/-- A newline-free byte string has no adjacent newline pair. -/
theorem noNN_of_no10 : ∀ {l : Bytes}, (10 : Nat) ∉ l → noNN l = true := by
  intro l
  induction l with
  | nil => intro _; rfl
  | cons a t ih =>
    intro h
    cases t with
    | nil => rfl
    | cons b r =>
      have ha : a ≠ 10 := fun hh => h (hh ▸ List.mem_cons_self a (b :: r))
      have hbr : (10 : Nat) ∉ b :: r := fun hm => h (List.mem_cons_of_mem a hm)
      rw [noNN]
      simp [ha, ih hbr]

/-- Joining a newline-free line in front of a pair-free suffix whose
head is not a newline keeps the result pair-free. -/
theorem noNN_line_append : ∀ (l J : Bytes), (10 : Nat) ∉ l → noNN J = true →
    J.head? ≠ some 10 → noNN (l ++ 10 :: J) = true := by
  intro l
  induction l with
  | nil =>
    intro J _ hJ hhead
    rw [List.nil_append]
    cases J with
    | nil => rfl
    | cons j J' =>
      have hj : j ≠ 10 := fun hh => hhead (by rw [hh]; rfl)
      rw [noNN]
      simp [hj, hJ]
  | cons x l' ih =>
    intro J h10 hJ hhead
    have hx : x ≠ 10 := fun hh => h10 (hh ▸ List.mem_cons_self x l')
    have hl' : (10 : Nat) ∉ l' := fun hm => h10 (List.mem_cons_of_mem x hm)
    have hrest : noNN (l' ++ 10 :: J) = true := ih J hl' hJ hhead
    have hne : l' ++ 10 :: J ≠ ([] : Bytes) := by simp
    obtain ⟨y, t, hyt⟩ := List.exists_cons_of_ne_nil hne
    rw [List.cons_append, hyt, noNN]
    rw [hyt] at hrest
    simp [hx, hrest]

/-- Every byte of a join is the separator or a byte of some piece. -/
theorem joinBytes_mem : ∀ (lines : List Bytes) (c : Nat),
    c ∈ joinBytes 10 lines → c = 10 ∨ ∃ l ∈ lines, c ∈ l := by
  intro lines
  induction lines with
  | nil => intro c hc; simp [joinBytes] at hc
  | cons l ls ih =>
    intro c hc
    cases ls with
    | nil =>
      right
      exact ⟨l, List.mem_cons_self l [], hc⟩
    | cons l₂ t =>
      rw [joinBytes_cons₂] at hc
      rcases List.mem_append.mp hc with h | h
      · exact Or.inr ⟨l, List.mem_cons_self l _, h⟩
      rcases List.mem_cons.mp h with h | h
      · exact Or.inl h
      · rcases ih c h with h1 | ⟨l', hl', hc'⟩
        · exact Or.inl h1
        · exact Or.inr ⟨l', List.mem_cons_of_mem l hl', hc'⟩

/-- The join of nonempty newline-free lines has no newline pair, does
not start or end with a newline, and is nonempty. -/
theorem joinBytes_line_facts : ∀ lines : List Bytes, lines ≠ [] →
    (∀ l ∈ lines, l ≠ [] ∧ (10 : Nat) ∉ l) →
    noNN (joinBytes 10 lines) = true
    ∧ (joinBytes 10 lines).head? ≠ some 10
    ∧ (joinBytes 10 lines).getLast? ≠ some 10
    ∧ joinBytes 10 lines ≠ [] := by
  intro lines
  induction lines with
  | nil => intro h _; exact absurd rfl h
  | cons l ls ih =>
    intro _ hall
    have hl := hall l (List.mem_cons_self l ls)
    cases ls with
    | nil =>
      exact ⟨noNN_of_no10 hl.2, head?_not_mem hl.2, getLast?_not_mem hl.2, hl.1⟩
    | cons l₂ t =>
      have hall2 : ∀ x ∈ l₂ :: t, x ≠ [] ∧ (10 : Nat) ∉ x :=
        fun x hx => hall x (List.mem_cons_of_mem l hx)
      obtain ⟨hnn, hhead, hlast, hne⟩ := ih (by simp) hall2
      rw [joinBytes_cons₂]
      refine ⟨noNN_line_append l _ hl.2 hnn hhead, ?_, ?_, by simp⟩
      · obtain ⟨a, t', hat⟩ := List.exists_cons_of_ne_nil hl.1
        rw [hat, List.cons_append]
        have ha : a ≠ 10 := fun hh => hl.2 (hh ▸ (hat ▸ List.mem_cons_self a t'))
        intro hh
        exact ha (by simpa using hh)
      · rw [List.getLast?_append_of_ne_nil l (by simp)]
        rw [show (10 :: joinBytes 10 (l₂ :: t) : Bytes)
              = [10] ++ joinBytes 10 (l₂ :: t) from rfl]
        rw [List.getLast?_append_of_ne_nil [10] hne]
        exact hlast

/-- Splitting the join of nonempty newline-free lines on newlines gives
the lines back. -/
theorem splitAll_joinBytes : ∀ lines : List Bytes, lines ≠ [] →
    (∀ l ∈ lines, (10 : Nat) ∉ l) →
    splitAll 10 (joinBytes 10 lines) = lines := by
  intro lines
  induction lines with
  | nil => intro h _; exact absurd rfl h
  | cons l ls ih =>
    intro _ hall
    have hl := hall l (List.mem_cons_self l ls)
    cases ls with
    | nil => exact splitAll_of_not_mem hl
    | cons l₂ t =>
      rw [joinBytes_cons₂, splitAll_append _ hl,
        ih (by simp) fun x hx => hall x (List.mem_cons_of_mem l hx)]

/-- `splitFirstNN` finds exactly the boundary after a pair-free prefix
not ending in a newline. -/
theorem splitFirstNN_boundary : ∀ (A M : Bytes), noNN A = true →
    A.getLast? ≠ some 10 → splitFirstNN (A ++ 10 :: 10 :: M) = some (A, M) := by
  intro A
  induction A with
  | nil =>
    intro M _ _
    rw [List.nil_append, splitFirstNN, if_pos ⟨rfl, rfl⟩]
  | cons a A' ih =>
    intro M hnn hlast
    cases A' with
    | nil =>
      have ha : a ≠ 10 := fun hh => hlast (by rw [hh]; rfl)
      rw [List.cons_append, List.nil_append, splitFirstNN,
        if_neg (fun hc => ha hc.1),
        show splitFirstNN (10 :: 10 :: M) = some ([], M) from by
          rw [splitFirstNN, if_pos ⟨rfl, rfl⟩]]
    | cons b r =>
      rw [noNN, Bool.and_eq_true] at hnn
      obtain ⟨hab, hbr⟩ := hnn
      have hlast' : (b :: r : Bytes).getLast? ≠ some 10 := by
        rwa [List.getLast?_cons_cons] at hlast
      have hnab : ¬(a = 10 ∧ b = 10) := by
        intro ⟨h1, h2⟩
        simp [h1, h2] at hab
      rw [List.cons_append, List.cons_append, splitFirstNN, if_neg hnab]
      rw [show b :: (r ++ 10 :: 10 :: M) = (b :: r) ++ 10 :: 10 :: M from rfl]
      rw [ih M hbr hlast']

/-- `parseHeaderLines` on a line made of a space-free key, a space, and
a value. -/
theorem parseHeaderLines_cons (key v : Bytes) (rest : List Bytes)
    (hk : (32 : Nat) ∉ key) :
    parseHeaderLines ((key ++ 32 :: v) :: rest)
      = (parseHeaderLines rest).map ((key, v) :: ·) := by
  rw [parseHeaderLines, splitFirst_append v hk]

/-- Parsing a stored commit whose text is nonempty ASCII header lines,
a blank line, and a valid-UTF-8 message recovers the parsed headers and
the stripped message. -/
theorem parseCommit_of_lines (s' : Store) (h : Bytes) (lines : List Bytes)
    (M : Bytes) (hs : List (Bytes × Bytes))
    (hret : retrieveObject s' h = .ok (commitKind, joinBytes 10 (lines ++ [[], M])))
    (hne : lines ≠ [])
    (hfacts : ∀ l ∈ lines, l ≠ [] ∧ (10 : Nat) ∉ l ∧ ∀ c ∈ l, c < 128)
    (hM : isValidUtf8 M = true)
    (hph : parseHeaderLines lines = .ok hs) :
    parseCommit s' h = .ok ⟨hs, pyStrip M⟩ := by
  have hfacts2 : ∀ l ∈ lines, l ≠ [] ∧ (10 : Nat) ∉ l :=
    fun l hl => ⟨(hfacts l hl).1, (hfacts l hl).2.1⟩
  have hcontent : joinBytes 10 (lines ++ [[], M])
      = joinBytes 10 lines ++ 10 :: 10 :: M := joinBytes_blank_message lines M hne
  obtain ⟨hnn, _, hlast, _⟩ := joinBytes_line_facts lines hne hfacts2
  have hascii : ∀ c ∈ joinBytes 10 lines ++ [10, 10], c < 128 := by
    intro c hc
    rcases List.mem_append.mp hc with hcj | hc2
    · rcases joinBytes_mem lines c hcj with h10 | ⟨l, hl, hcl⟩
      · omega
      · exact (hfacts l hl).2.2 c hcl
    · rcases List.mem_cons.mp hc2 with h1 | h1
      · omega
      · rcases List.mem_cons.mp h1 with h2 | h2
        · omega
        · simp at h2
  have hvu : isValidUtf8 (joinBytes 10 (lines ++ [[], M])) = true := by
    rw [hcontent,
      show joinBytes 10 lines ++ 10 :: 10 :: M
        = (joinBytes 10 lines ++ [10, 10]) ++ M by simp]
    exact isValidUtf8_append (isValidUtf8_of_ascii hascii) hM
  have hsplitNN : splitFirstNN (joinBytes 10 (lines ++ [[], M]))
      = some (joinBytes 10 lines, M) := by
    rw [hcontent]
    exact splitFirstNN_boundary _ M hnn hlast
  have hsa : splitAll 10 (joinBytes 10 lines) = lines :=
    splitAll_joinBytes lines hne fun l hl => (hfacts l hl).2.1
  rw [parseCommit, hret]
  simp only
  rw [if_pos trivial, if_pos hvu, hsplitNN]
  simp only
  rw [hsa, hph]

/-! ## Claim theorems: commit codec (C8) -/

/-- C8 counterexample: a commit created with the message consisting of
a space and the letter x parses back with message just the letter x —
`message.strip()` removes the leading space too, so the message is not
merely trailing-trimmed (which would keep the leading space). -/
theorem claim_commit_message_counterexample :
    ((parseCommit (createCommit [] (List.replicate 40 97) none [32, 120] 0).2
          (createCommit [] (List.replicate 40 97) none [32, 120] 0).1).toOption.map
        CommitData.message = some [120])
    ∧ ([120] : Bytes) ≠ [32, 120] := by
  constructor
  · decide
  · decide

/-- C8 (amended): parsing the commit produced by create gives a record
whose tree field is the given tree address, whose parent field is
present exactly when a parent address was supplied, and whose message
is the original message with leading and trailing whitespace trimmed
(Python `str.strip()` trims both ends, not only the trailing one). -/
theorem claim_commit_roundtrip (s : Store) (T : Bytes) (P : Option Bytes)
    (M : Bytes) (ts : Nat)
    (hT : T.length = 40 ∧ ∀ c ∈ T, isLowerHexDigit c = true)
    (hP : ∀ p, P = some p → p.length = 40 ∧ ∀ c ∈ p, isLowerHexDigit c = true)
    (hM : isValidUtf8 M = true)
    (hfresh : s.lookup (hashContent commitKind (commitContent T P M ts)) = none ∨
      s.lookup (hashContent commitKind (commitContent T P M ts))
        = some (frameBytes commitKind (commitContent T P M ts))) :
    ∃ cd : CommitData,
      parseCommit (createCommit s T P M ts).2 (createCommit s T P M ts).1 = .ok cd
      ∧ cd.get treeKind = some T
      ∧ cd.get parentKey = P
      ∧ cd.message = pyStrip M := by
  have hexNo10 : ∀ {x : Bytes}, (∀ c ∈ x, isLowerHexDigit c = true) → (10 : Nat) ∉ x :=
    fun hx hm => (isLowerHexDigit_facts (hx _ hm)).2.2.1 rfl
  have hexAscii : ∀ {x : Bytes}, (∀ c ∈ x, isLowerHexDigit c = true) →
      ∀ c ∈ x, c < 128 := fun hx c hm => (isLowerHexDigit_facts (hx c hm)).2.2.2
  have hretr : retrieveObject (createCommit s T P M ts).2 (createCommit s T P M ts).1
      = .ok (commitKind, commitContent T P M ts) := by
    rw [createCommit]
    exact retrieveObject_storeObject s commitKind _ (by decide) (by decide)
      (by decide) hfresh
  -- facts about the author/committer value tail
  have hpfNo10 : (10 : Nat) ∉ personField := by decide
  have htzNo10 : (10 : Nat) ∉ tzSuffix := by decide
  have hpfAscii : ∀ c ∈ personField, c < 128 := by decide
  have htzAscii : ∀ c ∈ tzSuffix, c < 128 := by decide
  have havNo10 : (10 : Nat) ∉ personField ++ 32 :: natToDecimal ts ++ tzSuffix := by
    intro hm
    rcases List.mem_append.mp hm with h1 | h1
    · rcases List.mem_append.mp h1 with h2 | h2
      · exact hpfNo10 h2
      · rcases List.mem_cons.mp h2 with h3 | h3
        · exact absurd h3 (by decide)
        · exact (isDigitByte_facts (natToDecimal_all ts 10 h3)).2.2.1 rfl
    · exact htzNo10 h1
  have havAscii : ∀ c ∈ personField ++ 32 :: natToDecimal ts ++ tzSuffix, c < 128 := by
    intro c hm
    rcases List.mem_append.mp hm with h1 | h1
    · rcases List.mem_append.mp h1 with h2 | h2
      · exact hpfAscii c h2
      · rcases List.mem_cons.mp h2 with h3 | h3
        · omega
        · exact (isDigitByte_facts (natToDecimal_all ts c h3)).2.2.2
    · exact htzAscii c h1
  have hkeyline : ∀ (key x : Bytes), (10 : Nat) ∉ key → (∀ c ∈ key, c < 128) →
      (10 : Nat) ∉ x → (∀ c ∈ x, c < 128) →
      (key ++ 32 :: x ≠ [] ∧ (10 : Nat) ∉ key ++ 32 :: x ∧
        ∀ c ∈ key ++ 32 :: x, c < 128) := by
    intro key x hk10 hka hx10 hxa
    refine ⟨by simp, ?_, ?_⟩
    · intro hm
      rcases List.mem_append.mp hm with h1 | h1
      · exact hk10 h1
      rcases List.mem_cons.mp h1 with h2 | h2
      · exact absurd h2 (by decide)
      · exact hx10 h2
    · intro c hm
      rcases List.mem_append.mp hm with h1 | h1
      · exact hka c h1
      rcases List.mem_cons.mp h1 with h2 | h2
      · omega
      · exact hxa c h2
  obtain ⟨hT40, hThex⟩ := hT
  have htreefacts := hkeyline treeKind T (by decide) (by decide)
    (hexNo10 hThex) (hexAscii hThex)
  have hauthfacts := hkeyline [97, 117, 116, 104, 111, 114]
    (personField ++ 32 :: natToDecimal ts ++ tzSuffix) (by decide) (by decide)
    havNo10 havAscii
  have hcommfacts := hkeyline [99, 111, 109, 109, 105, 116, 116, 101, 114]
    (personField ++ 32 :: natToDecimal ts ++ tzSuffix) (by decide) (by decide)
    havNo10 havAscii
  have hta : authorLine ts = [97, 117, 116, 104, 111, 114]
      ++ 32 :: (personField ++ 32 :: natToDecimal ts ++ tzSuffix) := rfl
  have htc : committerLine ts = [99, 111, 109, 109, 105, 116, 116, 101, 114]
      ++ 32 :: (personField ++ 32 :: natToDecimal ts ++ tzSuffix) := rfl
  have htt : treeLinePrefix ++ T = treeKind ++ 32 :: T := rfl
  -- beq facts for the dict lookups
  have eTT : (treeKind == treeKind) = true := by decide
  have eAT : (([97, 117, 116, 104, 111, 114] : Bytes) == treeKind) = false := by decide
  have eCT : (([99, 111, 109, 109, 105, 116, 116, 101, 114] : Bytes) == treeKind)
      = false := by decide
  have ePT : ((parentKey : Bytes) == treeKind) = false := by decide
  have eTP : ((treeKind : Bytes) == parentKey) = false := by decide
  have eAP : (([97, 117, 116, 104, 111, 114] : Bytes) == parentKey) = false := by decide
  have eCP : (([99, 111, 109, 109, 105, 116, 116, 101, 114] : Bytes) == parentKey)
      = false := by decide
  have ePP : ((parentKey : Bytes) == parentKey) = true := by decide
  rcases P with _ | p
  · -- no parent line
    have hlineseq : commitHeaderLines T none ts
        = [treeKind ++ 32 :: T,
           [97, 117, 116, 104, 111, 114]
             ++ 32 :: (personField ++ 32 :: natToDecimal ts ++ tzSuffix),
           [99, 111, 109, 109, 105, 116, 116, 101, 114]
             ++ 32 :: (personField ++ 32 :: natToDecimal ts ++ tzSuffix)] := rfl
    have hph : parseHeaderLines (commitHeaderLines T none ts)
        = .ok [(treeKind, T),
            ([97, 117, 116, 104, 111, 114],
              personField ++ 32 :: natToDecimal ts ++ tzSuffix),
            ([99, 111, 109, 109, 105, 116, 116, 101, 114],
              personField ++ 32 :: natToDecimal ts ++ tzSuffix)] := by
      rw [hlineseq, parseHeaderLines_cons _ _ _ (by decide),
        parseHeaderLines_cons _ _ _ (by decide),
        parseHeaderLines_cons _ _ _ (by decide)]
      rfl
    have hfacts : ∀ l ∈ commitHeaderLines T none ts,
        l ≠ [] ∧ (10 : Nat) ∉ l ∧ ∀ c ∈ l, c < 128 := by
      rw [hlineseq]
      intro l hl
      rcases List.mem_cons.mp hl with h1 | h1
      · subst h1; exact htreefacts
      rcases List.mem_cons.mp h1 with h2 | h2
      · subst h2; exact hauthfacts
      rcases List.mem_cons.mp h2 with h3 | h3
      · subst h3; exact hcommfacts
      · simp at h3
    have hparse := parseCommit_of_lines (createCommit s T none M ts).2
      (createCommit s T none M ts).1 (commitHeaderLines T none ts) M _
      (by rw [hretr]; rfl) (by rw [hlineseq]; simp) hfacts hM hph
    refine ⟨_, hparse, ?_, ?_, rfl⟩
    · rw [CommitData.get]
      simp [List.filter, eTT, eAT, eCT]
    · rw [CommitData.get]
      simp [List.filter, eTP, eAP, eCP]
  · -- parent line present
    obtain ⟨hp40, hphex⟩ := hP p rfl
    have hpne : p ≠ [] := by
      intro hh
      rw [hh] at hp40
      simp at hp40
    have hparfacts := hkeyline parentKey p (by decide) (by decide)
      (hexNo10 hphex) (hexAscii hphex)
    have htp : parentLinePrefix ++ p = parentKey ++ 32 :: p := rfl
    have hlineseq : commitHeaderLines T (some p) ts
        = [treeKind ++ 32 :: T,
           parentKey ++ 32 :: p,
           [97, 117, 116, 104, 111, 114]
             ++ 32 :: (personField ++ 32 :: natToDecimal ts ++ tzSuffix),
           [99, 111, 109, 109, 105, 116, 116, 101, 114]
             ++ 32 :: (personField ++ 32 :: natToDecimal ts ++ tzSuffix)] := by
      rw [commitHeaderLines]
      simp only [if_neg hpne]
      rw [htt, htp, hta, htc]
      rfl
    have hph : parseHeaderLines (commitHeaderLines T (some p) ts)
        = .ok [(treeKind, T), (parentKey, p),
            ([97, 117, 116, 104, 111, 114],
              personField ++ 32 :: natToDecimal ts ++ tzSuffix),
            ([99, 111, 109, 109, 105, 116, 116, 101, 114],
              personField ++ 32 :: natToDecimal ts ++ tzSuffix)] := by
      rw [hlineseq, parseHeaderLines_cons _ _ _ (by decide),
        parseHeaderLines_cons _ _ _ (by decide),
        parseHeaderLines_cons _ _ _ (by decide),
        parseHeaderLines_cons _ _ _ (by decide)]
      rfl
    have hfacts : ∀ l ∈ commitHeaderLines T (some p) ts,
        l ≠ [] ∧ (10 : Nat) ∉ l ∧ ∀ c ∈ l, c < 128 := by
      rw [hlineseq]
      intro l hl
      rcases List.mem_cons.mp hl with h1 | h1
      · subst h1; exact htreefacts
      rcases List.mem_cons.mp h1 with h2 | h2
      · subst h2; exact hparfacts
      rcases List.mem_cons.mp h2 with h3 | h3
      · subst h3; exact hauthfacts
      rcases List.mem_cons.mp h3 with h4 | h4
      · subst h4; exact hcommfacts
      · simp at h4
    have hparse := parseCommit_of_lines (createCommit s T (some p) M ts).2
      (createCommit s T (some p) M ts).1 (commitHeaderLines T (some p) ts) M _
      (by rw [hretr]; rfl) (by rw [hlineseq]; simp) hfacts hM hph
    refine ⟨_, hparse, ?_, ?_, rfl⟩
    · rw [CommitData.get]
      simp [List.filter, eTT, eAT, eCT, ePT]
    · rw [CommitData.get]
      simp [List.filter, eTP, eAP, eCP, ePP]

/-- C8 witness: a parentless commit over a concrete tree address and
message parses back with that tree, no parent, and a stripped message. -/
theorem claim_commit_roundtrip_witness :
    ∃ cd : CommitData,
      parseCommit (createCommit [] (List.replicate 40 97) none [104, 105] 7).2
          (createCommit [] (List.replicate 40 97) none [104, 105] 7).1 = .ok cd
      ∧ cd.get treeKind = some (List.replicate 40 97)
      ∧ cd.get parentKey = none
      ∧ cd.message = pyStrip [104, 105] :=
  claim_commit_roundtrip [] (List.replicate 40 97) none [104, 105] 7
    (by decide) (fun p hp => by simp at hp) (by decide) (Or.inl rfl)

/-! ## Ref-resolution lemmas (C9, C10) -/

/-- The resolution relation is deterministic: the recursion of
`resolve_ref` computes a function of the store and the name. -/
theorem resolveRef_det : ∀ {s : RefStore} {n : Bytes} {r₁ r₂ : Option Bytes},
    ResolveRef s n r₁ → ResolveRef s n r₂ → r₁ = r₂ := by
  intro s n r₁ r₂ h₁
  induction h₁ with
  | headAbsent hl =>
    intro h₂
    cases h₂ with
    | headAbsent _ => rfl
    | notFound _ hg _ => exact absurd hl (hg rfl)
    | symbolic _ _ _ hg _ _ _ => exact absurd hl (hg rfl)
    | direct _ _ hg _ _ => exact absurd hl (hg rfl)
  | notFound n hg hf =>
    intro h₂
    cases h₂ with
    | headAbsent hl => exact absurd hl (hg rfl)
    | notFound _ _ _ => rfl
    | symbolic _ c _ _ hf' _ _ => rw [hf] at hf'; exact absurd hf' (by simp)
    | direct _ c _ hf' _ => rw [hf] at hf'; exact absurd hf' (by simp)
  | symbolic n c res hg hf hpre _ ih =>
    intro h₂
    cases h₂ with
    | headAbsent hl => exact absurd hl (hg rfl)
    | notFound _ _ hf' => rw [hf] at hf'; exact absurd hf' (by simp)
    | symbolic _ c' res' _ hf' hpre' hrec' =>
      rw [hf] at hf'
      cases Option.some.inj hf'
      exact ih hrec'
    | direct _ c' _ hf' hpre' =>
      rw [hf] at hf'
      cases Option.some.inj hf'
      rw [hpre] at hpre'
      exact absurd hpre' (by simp)
  | direct n c hg hf hpre =>
    intro h₂
    cases h₂ with
    | headAbsent hl => exact absurd hl (hg rfl)
    | notFound _ _ hf' => rw [hf] at hf'; exact absurd hf' (by simp)
    | symbolic _ c' res' _ hf' hpre' hrec' =>
      rw [hf] at hf'
      cases Option.some.inj hf'
      rw [hpre] at hpre'
      exact absurd hpre' (by simp)
    | direct _ c' _ hf' hpre' =>
      rw [hf] at hf'
      cases Option.some.inj hf'
      rfl

/-- C9: resolution tries the name directly and then under the
branch-heads namespace; nothing found at either stage resolves to none
(and to nothing else — the relation is deterministic); the HEAD
special case resolves to none when the HEAD file is missing; and a
symbolic ref A naming a direct ref B resolves A to B's commit
address. -/
theorem claim_resolve_ref :
    (∀ s : RefStore, s.lookup headName = none → ResolveRef s headName none)
    ∧ (∀ (s : RefStore) (name : Bytes), (name = headName → s.lookup headName ≠ none) →
        findRefFile s name = none → ResolveRef s name none)
    ∧ (∀ (s : RefStore) (n : Bytes) (r₁ r₂ : Option Bytes),
        ResolveRef s n r₁ → ResolveRef s n r₂ → r₁ = r₂)
    ∧ (∀ (s : RefStore) (A B C cA cB : Bytes),
        A ≠ headName → B ≠ headName →
        findRefFile s A = some cA → pyStrip cA = refMarker ++ B →
        findRefFile s B = some cB → pyStrip cB = C →
        refMarker.isPrefixOf C = false →
        ResolveRef s A (some C)) := by
  refine ⟨fun s hl => ResolveRef.headAbsent hl,
    fun s name hg hf => ResolveRef.notFound name hg hf,
    fun s n r₁ r₂ h₁ h₂ => resolveRef_det h₁ h₂, ?_⟩
  intro s A B C cA cB hA hB hfA hsA hfB hsB hnopre
  have hpreA : refMarker.isPrefixOf (pyStrip cA) = true := by
    rw [hsA, List.isPrefixOf_iff_prefix]
    exact List.prefix_append refMarker B
  have hdropA : (pyStrip cA).drop 5 = B := by
    rw [hsA, show (5 : Nat) = refMarker.length from rfl]
    exact List.drop_left refMarker B
  refine ResolveRef.symbolic A cA (some C) (fun h => absurd h hA) hfA hpreA ?_
  rw [hdropA]
  have hdir := ResolveRef.direct (s := s) B cB (fun h => absurd h hB) hfB
    (by rw [hsB]; exact hnopre)
  rw [hsB] at hdir
  exact hdir

/-- C9 witness: with ref a symbolic to ref b and b direct to a commit
address, resolving a yields that address. -/
theorem claim_resolve_ref_witness :
    ResolveRef [([97], [114, 101, 102, 58, 32, 98, 10]), ([98], List.replicate 40 99 ++ [10])]
      [97] (some (List.replicate 40 99)) :=
  claim_resolve_ref.2.2.2
    [([97], [114, 101, 102, 58, 32, 98, 10]), ([98], List.replicate 40 99 ++ [10])]
    [97] [98] (List.replicate 40 99) [114, 101, 102, 58, 32, 98, 10]
    (List.replicate 40 99 ++ [10])
    (by decide) (by decide) (by decide) (by decide) (by decide) (by decide) (by decide)

/-- C10: update-ref with a direct target rejects any value that is not
exactly 40 lower-case hex digits, returning an explicit error with the
ref store unchanged — nothing is written. -/
theorem claim_update_ref_validation (s : RefStore) (refName commitHash : Bytes)
    (hbad : commitHash.length ≠ 40 ∨ ¬ commitHash.all isLowerHexDigit = true) :
    updateRefChecked s refName commitHash = (s, some .invalidSha) := by
  rw [updateRefChecked, if_neg]
  intro hc
  rcases hbad with h | h
  · exact h hc.1
  · exact h hc.2

/-- C10 witness: a 38-character value is rejected and the store is
untouched. -/
theorem claim_update_ref_validation_witness :
    updateRefChecked [] [104] (List.replicate 38 97) = ([], some .invalidSha) :=
  claim_update_ref_validation [] [104] (List.replicate 38 97) (Or.inl (by decide))

end PyGit
